import Mathlib

/-!
Verification of the one-way folder synchronizer in `os/FileSync/main.py`
(class `FolderSynchronizer`).

The filesystem is modelled as a finite association list from absolute paths
(lists of name components) to nodes.  A node is either a file (carrying its
byte content and a readability flag) or a directory (carrying a readability
flag).  The readability flag models POSIX read permission: an unreadable
directory can still be stat-ed and traversed through by explicit path, but
its children cannot be listed by `os.scandir`; an unreadable file makes
`open(path, "rb")` raise `IOError`.

SHA-256 is idealized as a perfect (collision-free) digest, so a digest is
modelled as the byte content itself wrapped in `Option`: `none` models the
empty-string sentinel `""` that `calculate_file_hash` returns on `IOError`.

Log records are modelled structurally; only their shape (COPIED /
CREATED DIRECTORY / REMOVED FILE / REMOVED DIRECTORY / error / pass
markers) matters to the specification.  The error records emitted by
`calculate_file_hash` itself are not tracked (no claim mentions them);
all records emitted by the mutators and by `synchronize` are tracked.
-/

namespace FileSync

/-- A path is a list of name components; absolute paths are rooted at `[]`
(the filesystem root, which always exists and is never an entry). -/
abbrev Path := List String

/-- A filesystem node: a regular file with its byte content, or a directory.
The `readable` flag models POSIX read permission (see module docstring). -/
inductive Node where
  | file (content : List Nat) (readable : Bool)
  | dir (readable : Bool)
deriving DecidableEq

/-- A filesystem: a finite association list from absolute paths to nodes. -/
structure FS where
  entries : List (Path × Node)
deriving DecidableEq

/-- Look up the node stored at path `p`. -/
def FS.find (fs : FS) (p : Path) : Option Node :=
  (fs.entries.find? (fun e => e.1 == p)).map (fun e => e.2)

/-- Store node `n` at path `p`, overwriting any previous node there. -/
def FS.set (fs : FS) (p : Path) (n : Node) : FS :=
  ⟨(p, n) :: fs.entries.filter (fun e => !(e.1 == p))⟩

/-- Delete the single entry at path `p` (models `Path.unlink`). -/
def FS.removeKey (fs : FS) (p : Path) : FS :=
  ⟨fs.entries.filter (fun e => !(e.1 == p))⟩

/-- Delete `p` and every entry below it (models `shutil.rmtree`). -/
def FS.removeSubtree (fs : FS) (p : Path) : FS :=
  ⟨fs.entries.filter (fun e => !(p.isPrefixOf e.1))⟩

/-- True when a regular file sits at `q` (any readability). -/
def isFileAt (fs : FS) (q : Path) : Bool :=
  match fs.find q with
  | some (.file _ _) => true
  | _ => false

/-- True when a directory sits at `q` (any readability); models `Path.is_dir`. -/
def isDirAt (fs : FS) (q : Path) : Bool :=
  match fs.find q with
  | some (.dir _) => true
  | _ => false

/-- True when a readable directory sits at `q`: `os.scandir(q)` succeeds. -/
def isReadableDir (fs : FS) (q : Path) : Bool :=
  match fs.find q with
  | some (.dir true) => true
  | _ => false

/-- Readability flag of a node. -/
def nodeReadable : Node → Bool
  | .file _ r => r
  | .dir r => r

/-- The `st_size` of a node: a file's byte length; directories report the
(link-count dependent, here fixed) on-disk size of a directory inode. -/
def Node.st_size : Node → Nat
  | .file c _ => c.length
  | .dir _ => 4096

/-- The nonempty prefixes of a path, shortest first. -/
def prefixesOf (p : Path) : List Path :=
  (List.range p.length).map (fun i => p.take (i + 1))

/-- Models `pathlib.Path.mkdir(parents=True, exist_ok=True)`: creates `p`
and every missing ancestor as (readable) directories.  Returns `none` when
the call raises (`FileExistsError` when `p` itself is a regular file,
`NotADirectoryError` when a strict ancestor is); in the raising case the
filesystem is untouched, since blocked chains fail before any creation. -/
def mkdirP (fs : FS) (p : Path) : Option FS :=
  if (prefixesOf p).any (fun q => isFileAt fs q) then none
  else some ⟨fs.entries ++ (prefixesOf p).filterMap
    (fun q => if (fs.find q).isNone then some (q, Node.dir true) else none)⟩

/-- One log record, by shape.  `started`/`completed` are the pass-boundary
info markers; `errorLog` covers every `logger.error` record, keyed by the
offending path. -/
inductive LogEntry where
  | started (src rep : Path)
  | completed
  | copied (src dst : Path)
  | createdDir (p : Path)
  | removedFile (p : Path)
  | removedDir (p : Path)
  | errorLog (p : Path)
deriving DecidableEq

/-- Models `FolderSynchronizer.calculate_file_hash` with SHA-256 idealized
as injective: the digest of a readable file is its content; `none` models
the `""` sentinel returned when reading raises `IOError` (unreadable file,
directory, or missing path). -/
def calculate_file_hash (fs : FS) (p : Path) : Option (List Nat) :=
  match fs.find p with
  | some (.file c true) => some c
  | _ => none

/-- Models `FolderSynchronizer.files_are_identical`: false if either path
has no entry; false if the two nodes' `st_size` differ; otherwise compares
the two digests — note that two failed digests (`none == none`, i.e. the
Python `"" == ""`) compare equal. -/
def files_are_identical (fs : FS) (a b : Path) : Bool :=
  match fs.find a, fs.find b with
  | some na, some nb =>
    if na.st_size != nb.st_size then false
    else calculate_file_hash fs a == calculate_file_hash fs b
  | _, _ => false

/-- Models `FolderSynchronizer.copy_file`.  First `dst.parent.mkdir(parents=True,
exist_ok=True)` (a failure there is caught and logged, leaving the filesystem
unchanged); then `shutil.copy2(src, dst)`: when `dst` is an existing directory
`copy2` retargets to `dst / basename(src)`; copying then fails (caught, logged)
when source and target are the same path (`SameFileError`), when `src` is not a
readable file, or when the target is itself a directory.  Directories created
by the `mkdir` step persist even when the copy step fails, because the `except`
wraps both steps. -/
def copy_file (fs : FS) (src dst : Path) : FS × List LogEntry :=
  match mkdirP fs dst.dropLast with
  | none => (fs, [.errorLog dst])
  | some fs1 =>
    let targ := if isDirAt fs1 dst then dst ++ [src.getLastD ""] else dst
    if targ == src then (fs1, [.errorLog dst])
    else
      match fs1.find src with
      | some (.file c true) =>
        if isDirAt fs1 targ then (fs1, [.errorLog dst])
        else (fs1.set targ (.file c true), [.copied src dst])
      | _ => (fs1, [.errorLog src])

/-- Models `FolderSynchronizer.create_directory`: `mkdir(parents=True,
exist_ok=True)` and a CREATED DIRECTORY record on success (the record is
emitted even when the directory already existed), an error record on
failure. -/
def create_directory (fs : FS) (p : Path) : FS × List LogEntry :=
  match mkdirP fs p with
  | some fs1 => (fs1, [.createdDir p])
  | none => (fs, [.errorLog p])

/-- Models `FolderSynchronizer.remove_path`: a file is unlinked (REMOVED
FILE record), a directory is removed recursively (REMOVED DIRECTORY
record), and a path with no entry falls through both branches — no
mutation and, in particular, no log record at all. -/
def remove_path (fs : FS) (p : Path) : FS × List LogEntry :=
  match fs.find p with
  | some (.file _ _) => (fs.removeKey p, [.removedFile p])
  | some (.dir _) => (fs.removeSubtree p, [.removedDir p])
  | none => (fs, [])

/-- True when the relative path `rel` is produced by `os.walk(root)`:
`rel` names an existing entry and every directory on the chain from `root`
(inclusive) to `rel` (exclusive) is a readable directory.  `os.walk` with
the default `onerror=None` ignores `OSError` from `scandir` (documented
Python behavior), so an unreadable directory is silently skipped: it is
itself listed by its parent, but nothing beneath it is visited. -/
def reachable (fs : FS) (root : Path) : Path → Bool
  | [] => false
  | [c] => isReadableDir fs root && (fs.find (root ++ [c])).isSome
  | c :: rest => isReadableDir fs root && reachable fs (root ++ [c]) rest

/-- The relative paths enumerated by walking `root`. -/
def walkPaths (fs : FS) (root : Path) : List Path :=
  (fs.entries.map (fun e => e.1)).filterMap
    (fun p => if root.isPrefixOf p then
        if reachable fs root (p.drop root.length) then some (p.drop root.length)
        else none
      else none)

/-- Models `FolderSynchronizer.get_directory_structure`, returning the
enumerated relative paths together with the log records the call emits.
The records are always empty: a missing root returns early, `os.walk`
swallows `scandir` errors itself (default `onerror=None`), and no other
statement inside the loop can raise, so the `except` clause that would
log `Error scanning directory` is unreachable. -/
def get_directory_structure (fs : FS) (root : Path) : List Path × List LogEntry :=
  (walkPaths fs root, [])

/-- One iteration of the additive loop of `synchronize` (lines 157-168):
a source directory is created in the replica only when nothing exists at
the replica path; a source file is copied when the replica path is vacant
or the identity check fails. -/
def sync_item (fs : FS) (S R : Path) (rel : Path) : FS × List LogEntry :=
  let src := S ++ rel
  let rep := R ++ rel
  match fs.find src with
  | some (.dir _) =>
    if (fs.find rep).isSome then (fs, []) else create_directory fs rep
  | _ =>
    if (fs.find rep).isNone then copy_file fs src rep
    else if files_are_identical fs src rep then (fs, [])
    else copy_file fs src rep

/-- The additive pass: fold `sync_item` over the source snapshot,
threading the filesystem and accumulating logs in loop order. -/
def additivePass (S R : Path) (fs : FS) : List Path → FS × List LogEntry
  | [] => (fs, [])
  | rel :: rest =>
    let r := sync_item fs S R rel
    let t := additivePass S R r.1 rest
    (t.1, r.2 ++ t.2)

/-- The subtractive pass: remove every replica-snapshot path that is not
in the source snapshot. -/
def subtractivePass (R : Path) (srcSet : List Path) (fs : FS) :
    List Path → FS × List LogEntry
  | [] => (fs, [])
  | rel :: rest =>
    if srcSet.contains rel then subtractivePass R srcSet fs rest
    else
      let r := remove_path fs (R ++ rel)
      let t := subtractivePass R srcSet r.1 rest
      (t.1, r.2 ++ t.2)

/-- Models `FolderSynchronizer.synchronize`.  The `started` marker is
logged first; a missing source root is an error-logged no-op return; the
replica root is then created with a bare `mkdir(parents=True, exist_ok=True)`
whose failure (replica root or an ancestor of it is a regular file) is NOT
caught anywhere in `synchronize` and escapes as an exception, modelled by
`Except.error` carrying the (unchanged) filesystem and the logs so far.
Both snapshots are taken after the `mkdir`, then the additive and the
subtractive passes run, then the `completed` marker is logged. -/
def synchronize (fs : FS) (S R : Path) :
    Except (FS × List LogEntry) (FS × List LogEntry) :=
  if (fs.find S).isNone then
    .ok (fs, [.started S R, .errorLog S])
  else
    match mkdirP fs R with
    | none => .error (fs, [.started S R])
    | some fs1 =>
      let src := get_directory_structure fs1 S
      let rep := get_directory_structure fs1 R
      let add := additivePass S R fs1 src.1
      let sub := subtractivePass R src.1 add.1 rep.1
      .ok (sub.1, [.started S R] ++ src.2 ++ rep.2 ++ add.2 ++ sub.2
            ++ [.completed])

/-- The filesystem after one `synchronize` call; in the exception case the
state at the raise point (the `mkdir` raises before any mutation). -/
def syncFS (fs : FS) (S R : Path) : FS :=
  match synchronize fs S R with
  | .ok (f, _) => f
  | .error (f, _) => f

/-- The log records of one `synchronize` call (up to the raise point in
the exception case). -/
def syncLog (fs : FS) (S R : Path) : List LogEntry :=
  match synchronize fs S R with
  | .ok (_, l) => l
  | .error (_, l) => l

/-- True when the pass ran to its `Synchronization completed` marker or to
the missing-source early return (no exception escaped). -/
def syncCompleted (fs : FS) (S R : Path) : Bool :=
  match synchronize fs S R with
  | .ok _ => true
  | .error _ => false

/-- The outer driver (`main`) calls `synchronize` repeatedly and stops
the program when an exception escapes a pass. -/
def runPasses (S R : Path) : Nat → FS → FS
  | 0, fs => fs
  | n + 1, fs =>
    match synchronize fs S R with
    | .ok (f, _) => runPasses S R n f
    | .error (f, _) => f

/-- Well-formed filesystem: keys are distinct, no entry sits at the
filesystem root `[]`, and every entry's parent is either `[]` or a
directory entry. -/
def FS.WF (fs : FS) : Prop :=
  (fs.entries.map (fun e => e.1)).Nodup ∧
    ∀ e ∈ fs.entries, e.1 ≠ [] ∧
      (e.1.dropLast = [] ∨ isDirAt fs e.1.dropLast = true)

/-- Well-formedness is decidable, so concrete witnesses can discharge it. -/
instance (fs : FS) : Decidable fs.WF := by
  unfold FS.WF
  infer_instance

/-- Every entry at or below `root` is readable (its flag is set). -/
def allReadableUnder (fs : FS) (root : Path) : Bool :=
  fs.entries.all (fun e => !(root.isPrefixOf e.1) || nodeReadable e.2)

/-- No relative path is a directory in the source tree and a regular file
in the replica tree, or vice versa. -/
def noMismatch (fs : FS) (S R : Path) : Bool :=
  fs.entries.all (fun e =>
    if S.isPrefixOf e.1 then
      match e.2, fs.find (R ++ e.1.drop S.length) with
      | .dir _, some (.file _ _) => false
      | .file _ _, some (.dir _) => false
      | _, _ => true
    else true)

/-- The replica tree mirrors the source tree node-for-node: every entry
strictly under either root has an identical counterpart under the other. -/
def syncedB (fs : FS) (S R : Path) : Bool :=
  fs.entries.all (fun e =>
    (!(S.isPrefixOf e.1) || (e.1 == S)
      || (fs.find (R ++ e.1.drop S.length) == some e.2)) &&
    (!(R.isPrefixOf e.1) || (e.1 == R)
      || (fs.find (S ++ e.1.drop R.length) == some e.2)))

end FileSync

namespace FileSync

/-! ### List lookup helpers -/

theorem list_find?_append {α : Type} (P : α → Bool) (l₁ l₂ : List α) :
    (l₁ ++ l₂).find? P =
      match l₁.find? P with
      | some x => some x
      | none => l₂.find? P := by
  induction l₁ with
  | nil => simp
  | cons a t ih =>
    cases h : P a with
    | true => simp [List.find?, h]
    | false => simp [List.find?, h, ih]

theorem list_find?_filter_of_keep {α : Type} (P keep : α → Bool) (l : List α)
    (h : ∀ e ∈ l, P e = true → keep e = true) :
    (l.filter keep).find? P = l.find? P := by
  induction l with
  | nil => rfl
  | cons a t ih =>
    have ht : ∀ e ∈ t, P e = true → keep e = true :=
      fun e he => h e (List.mem_cons_of_mem a he)
    cases hk : keep a with
    | true =>
      cases hp : P a with
      | true => simp [List.filter_cons, hk, List.find?, hp]
      | false => simp [List.filter_cons, hk, List.find?, hp, ih ht]
    | false =>
      have hp : P a = false := by
        cases hpa : P a with
        | true => exact absurd (h a (List.mem_cons_self a t) hpa) (by simp [hk])
        | false => rfl
      simp [List.filter_cons, hk, List.find?, hp, ih ht]

theorem list_find?_filter_of_drop {α : Type} (P keep : α → Bool) (l : List α)
    (h : ∀ e ∈ l, P e = true → keep e = false) :
    (l.filter keep).find? P = none := by
  induction l with
  | nil => rfl
  | cons a t ih =>
    have ht : ∀ e ∈ t, P e = true → keep e = false :=
      fun e he => h e (List.mem_cons_of_mem a he)
    cases hk : keep a with
    | true =>
      have hp : P a = false := by
        cases hpa : P a with
        | true => exact absurd (h a (List.mem_cons_self a t) hpa) (by simp [hk])
        | false => rfl
      simp [List.filter_cons, hk, List.find?, hp, ih ht]
    | false => simp [List.filter_cons, hk, ih ht]

/-! ### FS.find lemmas -/

theorem FS.find_eq_some_mem {fs : FS} {p : Path} {n : Node}
    (h : fs.find p = some n) : (p, n) ∈ fs.entries := by
  unfold FS.find at h
  cases hf : fs.entries.find? (fun e => e.1 == p) with
  | none => rw [hf] at h; simp at h
  | some e =>
    rw [hf] at h
    have h2 : e.2 = n := by
      have := h
      simp at this
      exact this
    have hm := List.mem_of_find?_eq_some hf
    have hk := List.find?_some hf
    have hk2 : e.1 = p := by simpa using hk
    have he : e = (p, n) := by
      cases e
      simp only at hk2 h2
      rw [hk2, h2]
    rw [← he]; exact hm

theorem FS.isSome_of_mem {fs : FS} {p : Path} {n : Node}
    (h : (p, n) ∈ fs.entries) : (fs.find p).isSome = true := by
  unfold FS.find
  cases hf : fs.entries.find? (fun e => e.1 == p) with
  | some e => simp
  | none =>
    have := List.find?_eq_none.mp hf _ h
    simp at this

theorem FS.find_set (fs : FS) (p : Path) (n : Node) (q : Path) :
    (fs.set p n).find q = if q = p then some n else fs.find q := by
  unfold FS.set FS.find
  by_cases h : q = p
  · subst h
    simp [List.find?_cons]
  · have hb : (p == q) = false := by
      simp only [beq_eq_false_iff_ne]
      exact fun hh => h hh.symm
    simp only [List.find?_cons, hb]
    rw [list_find?_filter_of_keep _ _ _ (by
        intro e _ hpe
        have he : e.1 = q := by simpa using hpe
        simp [he, h])]
    simp [h]

theorem FS.find_removeKey (fs : FS) (p q : Path) :
    (fs.removeKey p).find q = if q = p then none else fs.find q := by
  unfold FS.removeKey FS.find
  by_cases h : q = p
  · subst h
    rw [if_pos rfl,
      list_find?_filter_of_drop _ _ _ (by
        intro e _ hpe
        have he : e.1 = q := by simpa using hpe
        simp [he])]
    rfl
  · rw [if_neg h,
      list_find?_filter_of_keep _ _ _ (by
        intro e _ hpe
        have he : e.1 = q := by simpa using hpe
        simp [he, h])]

theorem FS.find_removeSubtree (fs : FS) (p q : Path) :
    (fs.removeSubtree p).find q = if p <+: q then none else fs.find q := by
  unfold FS.removeSubtree FS.find
  by_cases h : p <+: q
  · rw [if_pos h,
      list_find?_filter_of_drop _ _ _ (by
        intro e _ hpe
        have he : e.1 = q := by simpa using hpe
        have hb : p.isPrefixOf e.1 = true := by
          rw [he]; exact List.isPrefixOf_iff_prefix.mpr h
        simp [hb])]
    rfl
  · rw [if_neg h,
      list_find?_filter_of_keep _ _ _ (by
        intro e _ hpe
        have he : e.1 = q := by simpa using hpe
        have hb : p.isPrefixOf e.1 = false := by
          cases hh : p.isPrefixOf e.1 with
          | true =>
            exact absurd (List.isPrefixOf_iff_prefix.mp (by rw [← he]; exact hh)) h
          | false => rfl
        simp [hb])]

end FileSync

namespace FileSync

/-! ### Prefix lemmas -/

theorem prefix_length_lt {q p : Path} (h : q <+: p) (hne : q ≠ p) :
    q.length < p.length := by
  rcases Nat.lt_or_ge q.length p.length with hlt | hge
  · exact hlt
  · exfalso
    have hle := h.length_le
    have hlen : q.length = p.length := Nat.le_antisymm hle hge
    have hq := List.prefix_iff_eq_take.mp h
    rw [hlen, List.take_length] at hq
    exact hne hq

theorem prefix_dropLast {q p : Path} (h : q <+: p) (hne : q ≠ p) :
    q <+: p.dropLast := by
  have hlt := prefix_length_lt h hne
  have hq : q = p.take q.length := List.prefix_iff_eq_take.mp h
  have h2 : q = (p.dropLast).take q.length := by
    rw [List.dropLast_eq_take, List.take_take]
    have hmin : min q.length (p.length - 1) = q.length := by omega
    rw [hmin]
    exact hq
  rw [h2]
  exact List.take_prefix _ _

theorem mem_prefixesOf {q p : Path} : q ∈ prefixesOf p ↔ q ≠ [] ∧ q <+: p := by
  unfold prefixesOf
  constructor
  · intro hq
    rcases List.mem_map.mp hq with ⟨i, hi, rfl⟩
    have hi2 : i < p.length := List.mem_range.mp hi
    constructor
    · intro hnil
      have hl : (p.take (i + 1)).length = i + 1 := by
        rw [List.length_take]; omega
      rw [hnil] at hl
      simp at hl
    · exact List.take_prefix _ _
  · rintro ⟨hne, hpre⟩
    have h1 : 1 ≤ q.length := by
      cases q with
      | nil => exact absurd rfl hne
      | cons a t => simp
    have h2 := hpre.length_le
    refine List.mem_map.mpr ⟨q.length - 1, List.mem_range.mpr (by omega), ?_⟩
    have h3 : q.length - 1 + 1 = q.length := by omega
    rw [h3]
    exact (List.prefix_iff_eq_take.mp hpre).symm

theorem prefixesOf_nodup (p : Path) : (prefixesOf p).Nodup := by
  unfold prefixesOf
  refine List.Nodup.map_on ?_ (List.nodup_range _)
  intro i hi j hj hij
  have hi2 : i < p.length := List.mem_range.mp hi
  have hj2 : j < p.length := List.mem_range.mp hj
  have h1 : (p.take (i + 1)).length = i + 1 := by rw [List.length_take]; omega
  have h2 : (p.take (j + 1)).length = j + 1 := by rw [List.length_take]; omega
  have h3 := congrArg List.length hij
  rw [h1, h2] at h3
  omega

/-! ### mkdirP lemmas -/

theorem find?_adds (l : List Path) (g : Path → Bool) (q : Path) :
    ((l.filterMap (fun x => if g x then some (x, Node.dir true) else none)).find?
      (fun e => e.1 == q)) =
      if q ∈ l ∧ g q = true then some (q, Node.dir true) else none := by
  induction l with
  | nil => simp
  | cons a t ih =>
    cases hga : g a with
    | true =>
      by_cases haq : a = q
      · subst haq
        simp [List.filterMap_cons, hga, List.find?_cons]
      · have hb : (a == q) = false := by simp [haq]
        simp only [List.filterMap_cons, hga, if_pos, List.find?_cons, hb]
        rw [ih]
        by_cases hqt : q ∈ t ∧ g q = true
        · rw [if_pos hqt, if_pos ⟨List.mem_cons_of_mem a hqt.1, hqt.2⟩]
        · rw [if_neg hqt, if_neg ?_]
          rintro ⟨hm, hg⟩
          rcases List.mem_cons.mp hm with h1 | h1
          · exact haq h1.symm
          · exact hqt ⟨h1, hg⟩
    | false =>
      have hred : (if g a = true then some (a, Node.dir true) else none)
          = (none : Option (Path × Node)) := by
        simp [hga]
      rw [List.filterMap_cons, hred, ih]
      by_cases haq : a = q
      · subst haq
        rw [if_neg (by rintro ⟨_, hg⟩; rw [hga] at hg; cases hg),
          if_neg (by rintro ⟨_, hg⟩; rw [hga] at hg; cases hg)]
      · by_cases hqt : q ∈ t ∧ g q = true
        · rw [if_pos hqt, if_pos ⟨List.mem_cons_of_mem a hqt.1, hqt.2⟩]
        · rw [if_neg hqt, if_neg ?_]
          rintro ⟨hm, hg⟩
          rcases List.mem_cons.mp hm with h1 | h1
          · exact haq h1.symm
          · exact hqt ⟨h1, hg⟩

theorem mkdirP_some_entries {fs fs1 : FS} {p : Path} (h : mkdirP fs p = some fs1) :
    fs1.entries = fs.entries ++ (prefixesOf p).filterMap
      (fun q => if (fs.find q).isNone then some (q, Node.dir true) else none) ∧
    (prefixesOf p).any (fun q => isFileAt fs q) = false := by
  unfold mkdirP at h
  split at h
  next => cases h
  next hcond =>
    have h2 := Option.some.inj h
    refine ⟨?_, by simpa using hcond⟩
    rw [← h2]

theorem mkdirP_find {fs fs1 : FS} {p : Path} (h : mkdirP fs p = some fs1) (q : Path) :
    fs1.find q = match fs.find q with
      | some n => some n
      | none => if q ∈ prefixesOf p then some (Node.dir true) else none := by
  obtain ⟨hent, _⟩ := mkdirP_some_entries h
  show (fs1.entries.find? (fun e => e.1 == q)).map (fun e => e.2) = _
  rw [hent, list_find?_append]
  cases hf : fs.entries.find? (fun e => e.1 == q) with
  | some e => simp [FS.find, hf]
  | none =>
    rw [find?_adds]
    have hfq : fs.find q = none := by simp [FS.find, hf]
    rw [hfq]
    by_cases hq : q ∈ prefixesOf p
    · rw [if_pos ⟨hq, by simp [hfq]⟩, if_pos hq]
      rfl
    · rw [if_neg (by rintro ⟨hm, _⟩; exact hq hm), if_neg hq]
      rfl

theorem mkdirP_find_of_isSome {fs fs1 : FS} {p q : Path} (h : mkdirP fs p = some fs1)
    (hq : (fs.find q).isSome = true) : fs1.find q = fs.find q := by
  rw [mkdirP_find h q]
  cases hf : fs.find q with
  | some n => rfl
  | none => rw [hf] at hq; simp at hq

theorem mkdirP_frame {fs fs1 : FS} {p q : Path} (h : mkdirP fs p = some fs1)
    (hq : ¬ q <+: p) : fs1.find q = fs.find q := by
  rw [mkdirP_find h q]
  cases hf : fs.find q with
  | some n => rfl
  | none =>
    have hm : q ∉ prefixesOf p := fun hm => hq (mem_prefixesOf.mp hm).2
    simp [hm]

theorem mkdirP_prefix_dir {fs fs1 : FS} {p : Path} (h : mkdirP fs p = some fs1) :
    ∀ q ∈ prefixesOf p, ∃ b, fs1.find q = some (.dir b) := by
  intro q hq
  obtain ⟨_, hnof⟩ := mkdirP_some_entries h
  have hnofile : isFileAt fs q = false := by
    have h2 := List.any_eq_false.mp hnof q hq
    simpa using h2
  rw [mkdirP_find h q]
  cases hf : fs.find q with
  | none => exact ⟨true, by simp [hq]⟩
  | some n =>
    cases n with
    | file c r =>
      exfalso
      unfold isFileAt at hnofile
      rw [hf] at hnofile
      cases hnofile
    | dir b => exact ⟨b, rfl⟩

theorem mkdirP_id {fs : FS} {p : Path}
    (h1 : ∀ q ∈ prefixesOf p, (fs.find q).isSome = true ∧ isFileAt fs q = false) :
    mkdirP fs p = some fs := by
  unfold mkdirP
  have hany : (prefixesOf p).any (fun q => isFileAt fs q) = false := by
    rw [List.any_eq_false]
    intro q hq
    simp [(h1 q hq).2]
  rw [if_neg (by simp [hany])]
  have hadds : (prefixesOf p).filterMap
      (fun q => if (fs.find q).isNone then some (q, Node.dir true) else none) = [] := by
    rw [List.filterMap_eq_nil_iff]
    intro q hq
    have h2 := (h1 q hq).1
    rw [if_neg ?_]
    intro h3
    rw [Option.isNone_iff_eq_none] at h3
    rw [h3] at h2
    cases h2
  rw [hadds, List.append_nil]

end FileSync

namespace FileSync

/-! ### Well-formedness lemmas -/

theorem adds_keys (l : List Path) (g : Path → Bool) :
    ((l.filterMap (fun x => if g x = true then some (x, Node.dir true) else none)).map
      (fun e => e.1)) = l.filter g := by
  induction l with
  | nil => rfl
  | cons a t ih =>
    cases hga : g a with
    | true =>
      have hred : (if g a = true then some (a, Node.dir true) else none)
          = some (a, Node.dir true) := by simp [hga]
      rw [List.filterMap_cons, hred, List.map_cons, ih, List.filter_cons, hga]
      simp
    | false =>
      have hred : (if g a = true then some (a, Node.dir true) else none)
          = (none : Option (Path × Node)) := by simp [hga]
      rw [List.filterMap_cons, hred, ih, List.filter_cons, hga]
      simp

theorem isDirAt_mkdirP {fs fs1 : FS} {p q : Path} (h : mkdirP fs p = some fs1)
    (hd : isDirAt fs q = true) : isDirAt fs1 q = true := by
  unfold isDirAt at hd ⊢
  cases hf : fs.find q with
  | none => rw [hf] at hd; cases hd
  | some m =>
    rw [mkdirP_find_of_isSome h (by simp [hf]), hf]
    rw [hf] at hd
    exact hd

theorem mkdirP_WF {fs fs1 : FS} {p : Path} (hWF : fs.WF) (h : mkdirP fs p = some fs1) :
    fs1.WF := by
  obtain ⟨hent, hnof⟩ := mkdirP_some_entries h
  constructor
  · rw [hent, List.map_append]
    apply List.Nodup.append
    · exact hWF.1
    · rw [adds_keys]
      exact (prefixesOf_nodup p).filter _
    · intro k hk1 hk2
      rw [adds_keys] at hk2
      have hkg := List.of_mem_filter hk2
      rcases List.mem_map.mp hk1 with ⟨e, he, rfl⟩
      have he2 : (e.1, e.2) ∈ fs.entries := by simpa using he
      have hs := FS.isSome_of_mem he2
      rw [Option.isNone_iff_eq_none] at hkg
      rw [hkg] at hs
      cases hs
  · intro e he
    rw [hent] at he
    rcases List.mem_append.mp he with hold | hnew
    · obtain ⟨hne, hpar⟩ := hWF.2 e hold
      refine ⟨hne, ?_⟩
      rcases hpar with h0 | hdir
      · exact Or.inl h0
      · exact Or.inr (isDirAt_mkdirP h hdir)
    · rcases List.mem_filterMap.mp hnew with ⟨q, hq, hfq⟩
      split at hfq
      · have he2 := Option.some.inj hfq
        subst he2
        obtain ⟨hqne, hqpre⟩ := mem_prefixesOf.mp hq
        refine ⟨hqne, ?_⟩
        by_cases h0 : q.dropLast = []
        · exact Or.inl h0
        · right
          have hdp : q.dropLast ∈ prefixesOf p := by
            rw [mem_prefixesOf]
            exact ⟨h0, (List.dropLast_prefix q).trans hqpre⟩
          obtain ⟨b, hb⟩ := mkdirP_prefix_dir h q.dropLast hdp
          unfold isDirAt
          rw [hb]
      · cases hfq

theorem ancestor_dir_aux {fs : FS} (hWF : fs.WF) :
    ∀ k : Nat, ∀ p : Path, ∀ n : Node, p.length ≤ k → fs.find p = some n →
      ∀ q : Path, q <+: p → q ≠ [] → q ≠ p → ∃ b, fs.find q = some (.dir b) := by
  intro k
  induction k with
  | zero =>
    intro p n hlen hf q hq hne hnep
    have hp : p = [] := List.length_eq_zero.mp (Nat.le_zero.mp hlen)
    subst hp
    exact absurd (List.prefix_nil.mp hq) hne
  | succ k ih =>
    intro p n hlen hf q hq hne hnep
    have hmem := FS.find_eq_some_mem hf
    obtain ⟨hpne, hpar⟩ := hWF.2 (p, n) hmem
    have hqd : q <+: p.dropLast := prefix_dropLast hq hnep
    rcases hpar with h0 | hdir
    · rw [h0] at hqd
      exact absurd (List.prefix_nil.mp hqd) hne
    · unfold isDirAt at hdir
      cases hfp : fs.find p.dropLast with
      | none => rw [hfp] at hdir; cases hdir
      | some m =>
        rw [hfp] at hdir
        cases m with
        | file c r => cases hdir
        | dir b =>
          by_cases hqp : q = p.dropLast
          · exact ⟨b, by rw [hqp, hfp]⟩
          · have h1 : 1 ≤ p.length := by
              cases p with
              | nil => exact absurd rfl hpne
              | cons a t => simp
            have hlen2 : p.dropLast.length ≤ k := by
              rw [List.length_dropLast]
              omega
            exact ih p.dropLast (Node.dir b) hlen2 hfp q hqd hne hqp

theorem FS.ancestor_dir {fs : FS} (hWF : fs.WF) {p : Path} {n : Node}
    (hf : fs.find p = some n) {q : Path} (hq : q <+: p) (h1 : q ≠ []) (h2 : q ≠ p) :
    ∃ b, fs.find q = some (.dir b) :=
  ancestor_dir_aux hWF p.length p n le_rfl hf q hq h1 h2

/-! ### Readability and mismatch hypotheses, unpacked -/

theorem allReadableUnder_spec {fs : FS} {root : Path} (h : allReadableUnder fs root = true)
    {p : Path} {n : Node} (hpre : root <+: p) (hf : fs.find p = some n) :
    nodeReadable n = true := by
  have hmem := FS.find_eq_some_mem hf
  have h2 := List.all_eq_true.mp h (p, n) hmem
  have hb : root.isPrefixOf p = true := List.isPrefixOf_iff_prefix.mpr hpre
  simp only [hb] at h2
  simpa using h2

end FileSync

namespace FileSync

theorem noMismatch_dir_file {fs : FS} {S R : Path} (h : noMismatch fs S R = true)
    {rel : Path} {b : Bool} {c : List Nat} {r : Bool}
    (hs : fs.find (S ++ rel) = some (.dir b)) :
    fs.find (R ++ rel) ≠ some (.file c r) := by
  intro hr
  have hmem := FS.find_eq_some_mem hs
  have h2 := List.all_eq_true.mp h _ hmem
  have hb : S.isPrefixOf (S ++ rel) = true :=
    List.isPrefixOf_iff_prefix.mpr (List.prefix_append S rel)
  simp only [hb, if_true, List.drop_left] at h2
  rw [hr] at h2
  cases h2

theorem noMismatch_file_dir {fs : FS} {S R : Path} (h : noMismatch fs S R = true)
    {rel : Path} {c : List Nat} {r : Bool} {b : Bool}
    (hs : fs.find (S ++ rel) = some (.file c r)) :
    fs.find (R ++ rel) ≠ some (.dir b) := by
  intro hr
  have hmem := FS.find_eq_some_mem hs
  have h2 := List.all_eq_true.mp h _ hmem
  have hb : S.isPrefixOf (S ++ rel) = true :=
    List.isPrefixOf_iff_prefix.mpr (List.prefix_append S rel)
  simp only [hb, if_true, List.drop_left] at h2
  rw [hr] at h2
  cases h2

theorem append_eq_nil_of_eq {S : Path} {rel : Path} (h : S ++ rel = S) : rel = [] := by
  have h2 := congrArg List.length h
  rw [List.length_append] at h2
  have : rel.length = 0 := by omega
  exact List.length_eq_zero.mp this

theorem syncedB_spec {fs : FS} {S R : Path} (h : syncedB fs S R = true)
    (rel : Path) (hrel : rel ≠ []) : fs.find (R ++ rel) = fs.find (S ++ rel) := by
  cases hs : fs.find (S ++ rel) with
  | some n =>
    have hmem := FS.find_eq_some_mem hs
    have h2 := (Bool.and_eq_true_iff.mp (List.all_eq_true.mp h _ hmem)).1
    have hb : S.isPrefixOf (S ++ rel) = true :=
      List.isPrefixOf_iff_prefix.mpr (List.prefix_append S rel)
    have hne : ((S ++ rel : Path) == S) = false := by
      rw [beq_eq_false_iff_ne]
      intro heq
      exact hrel (append_eq_nil_of_eq heq)
    simp only [hb, hne, List.drop_left, Bool.not_true, Bool.false_or] at h2
    simpa using h2
  | none =>
    cases hr : fs.find (R ++ rel) with
    | none => rfl
    | some m =>
      have hmem := FS.find_eq_some_mem hr
      have h2 := (Bool.and_eq_true_iff.mp (List.all_eq_true.mp h _ hmem)).2
      have hb : R.isPrefixOf (R ++ rel) = true :=
        List.isPrefixOf_iff_prefix.mpr (List.prefix_append R rel)
      have hne : ((R ++ rel : Path) == R) = false := by
        rw [beq_eq_false_iff_ne]
        intro heq
        exact hrel (append_eq_nil_of_eq heq)
      simp only [hb, hne, List.drop_left, Bool.not_true, Bool.false_or] at h2
      have h3 : fs.find (S ++ rel) = some m := by simpa using h2
      rw [h3] at hs
      cases hs

/-! ### Enumeration lemmas -/

theorem reachable_isReadableDir {fs : FS} {root : Path} {rel : Path}
    (hne : rel ≠ []) (h : reachable fs root rel = true) : isReadableDir fs root = true := by
  cases rel with
  | nil => exact absurd rfl hne
  | cons c rest =>
    cases rest with
    | nil =>
      unfold reachable at h
      exact (Bool.and_eq_true_iff.mp h).1
    | cons d rest2 =>
      unfold reachable at h
      exact (Bool.and_eq_true_iff.mp h).1

theorem reachable_find_isSome {fs : FS} : ∀ {rel root : Path},
    reachable fs root rel = true → (fs.find (root ++ rel)).isSome = true := by
  intro rel
  induction rel with
  | nil => intro root h; unfold reachable at h; cases h
  | cons c rest ih =>
    intro root h
    cases rest with
    | nil =>
      unfold reachable at h
      exact (Bool.and_eq_true_iff.mp h).2
    | cons d rest2 =>
      unfold reachable at h
      obtain ⟨h1, h2⟩ := Bool.and_eq_true_iff.mp h
      have h3 := ih h2
      rw [show root ++ c :: d :: rest2 = (root ++ [c]) ++ (d :: rest2) by simp]
      exact h3

theorem reachable_ne_nil {fs : FS} {root rel : Path}
    (h : reachable fs root rel = true) : rel ≠ [] := by
  intro hnil
  subst hnil
  unfold reachable at h
  cases h

theorem mem_walkPaths {fs : FS} {root rel : Path} :
    rel ∈ walkPaths fs root ↔ reachable fs root rel = true := by
  unfold walkPaths
  constructor
  · intro h
    rcases List.mem_filterMap.mp h with ⟨p, hp, hcond⟩
    split at hcond
    · split at hcond
      · next hreach =>
        have h2 := Option.some.inj hcond
        rw [← h2]
        exact hreach
      · cases hcond
    · cases hcond
  · intro h
    have hsome := reachable_find_isSome h
    cases hf : fs.find (root ++ rel) with
    | none => rw [hf] at hsome; cases hsome
    | some n =>
      have hmem := FS.find_eq_some_mem hf
      refine List.mem_filterMap.mpr ⟨root ++ rel, ?_, ?_⟩
      · exact List.mem_map.mpr ⟨(root ++ rel, n), hmem, rfl⟩
      · have hb : root.isPrefixOf (root ++ rel) = true :=
          List.isPrefixOf_iff_prefix.mpr (List.prefix_append root rel)
        simp [hb, List.drop_left, h]

theorem reachable_of_find_aux {fs : FS} (hWF : fs.WF) :
    ∀ rel root : Path, isReadableDir fs root = true →
      (∀ p n, root <+: p → fs.find p = some n → nodeReadable n = true) →
      rel ≠ [] → (fs.find (root ++ rel)).isSome = true → reachable fs root rel = true := by
  intro rel
  induction rel with
  | nil =>
    intro root _ _ h _
    exact absurd rfl h
  | cons c rest ih =>
    intro root hroot hread _ hsome
    cases rest with
    | nil =>
      unfold reachable
      rw [Bool.and_eq_true]
      exact ⟨hroot, hsome⟩
    | cons d rest2 =>
      unfold reachable
      rw [Bool.and_eq_true]
      have hassoc : root ++ c :: d :: rest2 = (root ++ [c]) ++ (d :: rest2) := by simp
      rw [hassoc] at hsome
      cases hf : fs.find ((root ++ [c]) ++ (d :: rest2)) with
      | none => rw [hf] at hsome; cases hsome
      | some n =>
        have hanc : ∃ b, fs.find (root ++ [c]) = some (.dir b) := by
          apply FS.ancestor_dir hWF hf
          · exact ⟨d :: rest2, rfl⟩
          · simp
          · intro heq
            have h2 := congrArg List.length heq
            simp at h2
        obtain ⟨b, hb⟩ := hanc
        have hbread := hread _ _ (List.prefix_append root [c]) hb
        have hbt : b = true := by simpa [nodeReadable] using hbread
        subst hbt
        refine ⟨hroot, ?_⟩
        apply ih (root ++ [c])
        · unfold isReadableDir
          rw [hb]
        · intro p n hp hf2
          exact hread p n ((List.prefix_append root [c]).trans hp) hf2
        · simp
        · rw [hf]
          rfl

theorem mem_walkPaths_iff {fs : FS} (hWF : fs.WF) {root : Path}
    (hroot : isReadableDir fs root = true)
    (hread : ∀ p n, root <+: p → fs.find p = some n → nodeReadable n = true)
    (rel : Path) :
    rel ∈ walkPaths fs root ↔ ((fs.find (root ++ rel)).isSome = true ∧ rel ≠ []) := by
  rw [mem_walkPaths]
  constructor
  · intro h
    exact ⟨reachable_find_isSome h, reachable_ne_nil h⟩
  · rintro ⟨h1, h2⟩
    exact reachable_of_find_aux hWF rel root hroot hread h2 h1

theorem reachable_of_prefix {fs : FS} : ∀ q rel root : Path,
    reachable fs root rel = true → q <+: rel → q ≠ [] → reachable fs root q = true := by
  intro q
  induction q with
  | nil =>
    intro rel root _ _ hne
    exact absurd rfl hne
  | cons c q2 ih =>
    intro rel root hr hq _
    cases rel with
    | nil => exact absurd (List.prefix_nil.mp hq) (by simp)
    | cons d rel2 =>
      obtain ⟨hcd, hq2⟩ := List.cons_prefix_cons.mp hq
      subst hcd
      cases q2 with
      | nil =>
        cases rel2 with
        | nil => exact hr
        | cons e rel3 =>
          unfold reachable at hr
          obtain ⟨h1, h2⟩ := Bool.and_eq_true_iff.mp hr
          unfold reachable
          rw [Bool.and_eq_true]
          refine ⟨h1, ?_⟩
          have hrd := reachable_isReadableDir (by simp) h2
          unfold isReadableDir at hrd
          cases hf : fs.find (root ++ [c]) with
          | none => rw [hf] at hrd; cases hrd
          | some m => simp [hf]
      | cons e q3 =>
        cases rel2 with
        | nil => exact absurd (List.prefix_nil.mp hq2) (by simp)
        | cons f rel3 =>
          unfold reachable at hr
          obtain ⟨h1, h2⟩ := Bool.and_eq_true_iff.mp hr
          unfold reachable
          rw [Bool.and_eq_true]
          exact ⟨h1, ih (f :: rel3) (root ++ [c]) h2 hq2 (by simp)⟩

theorem walkPaths_prefix_closed {fs : FS} {root : Path} {rel q : Path}
    (h : rel ∈ walkPaths fs root) (hq : q <+: rel) (hne : q ≠ []) :
    q ∈ walkPaths fs root := by
  rw [mem_walkPaths] at h ⊢
  exact reachable_of_prefix q rel root h hq hne

end FileSync

namespace FileSync

/-! ### Reconciliation-pass machinery -/

/-- `p` lies strictly below `R`. -/
def strictUnder (R p : Path) : Prop := R <+: p ∧ p ≠ R

theorem strictUnder_append {R rel : Path} (h : rel ≠ []) : strictUnder R (R ++ rel) :=
  ⟨List.prefix_append R rel, fun heq => h (append_eq_nil_of_eq heq)⟩

theorem not_strictUnder_of_ancestor {q R : Path} (h : q <+: R) : ¬ strictUnder R q := by
  rintro ⟨h1, h2⟩
  exact h2 (antisymm h h1)

theorem not_strictUnder_src {S R : Path} (d1 : ¬ S <+: R) (d2 : ¬ R <+: S)
    (rel : Path) : ¬ strictUnder R (S ++ rel) := by
  rintro ⟨hpre, _⟩
  rcases List.prefix_or_prefix_of_prefix hpre (List.prefix_append S rel) with h | h
  · exact d2 h
  · exact d1 h

theorem append_ne_nil_right {R rel : Path} (h : rel ≠ []) : R ++ rel ≠ [] := by
  intro h2
  rcases List.append_eq_nil.mp h2 with ⟨_, h3⟩
  exact h h3

theorem prefix_of_append_cases {R x q' : Path} (h : q' <+: R ++ x) :
    q' <+: R ∨ ∃ q, q ≠ [] ∧ q <+: x ∧ q' = R ++ q := by
  rcases le_or_lt q'.length R.length with hle | hlt
  · exact Or.inl (List.prefix_of_prefix_length_le h (List.prefix_append R x) hle)
  · right
    have hR : R <+: q' :=
      List.prefix_of_prefix_length_le (List.prefix_append R x) h (Nat.le_of_lt hlt)
    obtain ⟨q, rfl⟩ := hR
    refine ⟨q, ?_, (List.prefix_append_right_inj R).mp h, rfl⟩
    intro hq
    subst hq
    simp at hlt

/-- The facts about the snapshot state `fs1` (source exists and is fully
readable, replica root is a readable directory whose ancestors are
directories, the roots do not overlap, no dir/file kind mismatch) under
which one reconciliation pass converges. -/
structure SyncHyps (fs1 : FS) (S R : Path) : Prop where
  wf : fs1.WF
  dis1 : ¬ S <+: R
  dis2 : ¬ R <+: S
  sroot : fs1.find S = some (Node.dir true)
  rroot : fs1.find R = some (Node.dir true)
  sread : ∀ p n, S <+: p → fs1.find p = some n → nodeReadable n = true
  rread : ∀ p n, R <+: p → fs1.find p = some n → nodeReadable n = true
  rchain : ∀ q, q ≠ [] → q <+: R → ∃ b, fs1.find q = some (Node.dir b)
  mis1 : ∀ rel b c r, fs1.find (S ++ rel) = some (Node.dir b) →
    fs1.find (R ++ rel) ≠ some (Node.file c r)
  mis2 : ∀ rel c r b, fs1.find (S ++ rel) = some (Node.file c r) →
    fs1.find (R ++ rel) ≠ some (Node.dir b)

/-- During the passes, everything not strictly below the replica root still
has its snapshot value. -/
def AddFrame (fs1 st : FS) (R : Path) : Prop :=
  ∀ p : Path, ¬ strictUnder R p → st.find p = fs1.find p

/-- The replica slot of `rel` holds exactly the source snapshot node. -/
def SyncedSlot (fs1 : FS) (S R : Path) (st : FS) (rel : Path) : Prop :=
  st.find (R ++ rel) = fs1.find (S ++ rel)

/-- Invariant of the additive pass: frame outside the replica, and every
replica slot is either untouched or already synced to a present source
node. -/
def AddInv (fs1 : FS) (S R : Path) (st : FS) : Prop :=
  AddFrame fs1 st R ∧
    ∀ rel : Path, rel ≠ [] →
      st.find (R ++ rel) = fs1.find (R ++ rel) ∨
        (SyncedSlot fs1 S R st rel ∧ (fs1.find (S ++ rel)).isSome = true)

theorem sread_dir_true {fs1 : FS} {S R : Path} (H : SyncHyps fs1 S R)
    {rel : Path} {b : Bool} (h : fs1.find (S ++ rel) = some (Node.dir b)) : b = true := by
  have := H.sread _ _ (List.prefix_append S rel) h
  simpa [nodeReadable] using this

theorem sread_file_true {fs1 : FS} {S R : Path} (H : SyncHyps fs1 S R)
    {rel : Path} {c : List Nat} {r : Bool}
    (h : fs1.find (S ++ rel) = some (Node.file c r)) : r = true := by
  have := H.sread _ _ (List.prefix_append S rel) h
  simpa [nodeReadable] using this

theorem rread_dir_true {fs1 : FS} {S R : Path} (H : SyncHyps fs1 S R)
    {rel : Path} {b : Bool} (h : fs1.find (R ++ rel) = some (Node.dir b)) : b = true := by
  have := H.rread _ _ (List.prefix_append R rel) h
  simpa [nodeReadable] using this

theorem rread_file_true {fs1 : FS} {S R : Path} (H : SyncHyps fs1 S R)
    {rel : Path} {c : List Nat} {r : Bool}
    (h : fs1.find (R ++ rel) = some (Node.file c r)) : r = true := by
  have := H.rread _ _ (List.prefix_append R rel) h
  simpa [nodeReadable] using this

/-- Inside a pass, the `mkdir(parents=True)` preceding a create/copy at
`R ++ x` always succeeds, creates only missing replica-side directories
whose relative paths are source directories, and leaves every present
entry alone. -/
theorem pass_mkdirP_ok {fs1 : FS} {S R : Path} (H : SyncHyps fs1 S R)
    (st : FS) (hInv : AddInv fs1 S R st) (x : Path)
    (hsrcdirs : ∀ q, q <+: x → q ≠ [] → ∃ b, fs1.find (S ++ q) = some (Node.dir b)) :
    ∃ st', mkdirP st (R ++ x) = some st' ∧
      (∀ p, (st.find p).isSome = true → st'.find p = st.find p) ∧
      (∀ p, st.find p = none → p ∈ prefixesOf (R ++ x) → st'.find p = some (Node.dir true)) ∧
      (∀ p, st.find p = none → p ∉ prefixesOf (R ++ x) → st'.find p = none) := by
  have hok : ∀ q' ∈ prefixesOf (R ++ x), isFileAt st q' = false := by
    intro q' hq'
    obtain ⟨hq'ne, hq'pre⟩ := mem_prefixesOf.mp hq'
    rcases prefix_of_append_cases hq'pre with hR | ⟨q, hqne, hqx, rfl⟩
    · have hfr : st.find q' = fs1.find q' := hInv.1 q' (not_strictUnder_of_ancestor hR)
      obtain ⟨b, hb⟩ := H.rchain q' hq'ne hR
      unfold isFileAt
      rw [hfr, hb]
    · obtain ⟨b, hb⟩ := hsrcdirs q hqx hqne
      rcases hInv.2 q hqne with huntouched | ⟨hsync, _⟩
      · unfold isFileAt
        rw [huntouched]
        cases hf : fs1.find (R ++ q) with
        | none => rfl
        | some m =>
          cases m with
          | file c r => exact absurd hf (H.mis1 q b c r hb)
          | dir b2 => rfl
      · unfold isFileAt
        unfold SyncedSlot at hsync
        rw [hsync, hb]
  have hnone : mkdirP st (R ++ x) ≠ none := by
    intro hcontra
    unfold mkdirP at hcontra
    split at hcontra
    · next hcond =>
      rw [List.any_eq_true] at hcond
      obtain ⟨q, hq, hfq⟩ := hcond
      rw [hok q hq] at hfq
      cases hfq
    · cases hcontra
  cases hmk : mkdirP st (R ++ x) with
  | none => exact absurd hmk hnone
  | some st' =>
    refine ⟨st', rfl, ?_, ?_, ?_⟩
    · intro p hp
      exact mkdirP_find_of_isSome hmk hp
    · intro p hp hmem
      rw [mkdirP_find hmk p, hp]
      simp [hmem]
    · intro p hp hmem
      rw [mkdirP_find hmk p, hp]
      simp [hmem]

end FileSync

namespace FileSync

theorem AddInv_after_mkdirP {fs1 : FS} {S R : Path} (H : SyncHyps fs1 S R)
    {st st' : FS} (hInv : AddInv fs1 S R st) {x : Path}
    (hsrcdirs : ∀ q, q <+: x → q ≠ [] → ∃ b, fs1.find (S ++ q) = some (Node.dir b))
    (hkeep : ∀ p, (st.find p).isSome = true → st'.find p = st.find p)
    (hcreate : ∀ p, st.find p = none → p ∈ prefixesOf (R ++ x) →
      st'.find p = some (Node.dir true))
    (hmiss : ∀ p, st.find p = none → p ∉ prefixesOf (R ++ x) → st'.find p = none) :
    AddInv fs1 S R st' ∧
    (∀ rel₀, rel₀ ≠ [] → SyncedSlot fs1 S R st rel₀ → SyncedSlot fs1 S R st' rel₀) := by
  refine ⟨⟨?_, ?_⟩, ?_⟩
  · intro p hp
    cases hf : st.find p with
    | some m =>
      rw [hkeep p (by simp [hf]), hf, ← hInv.1 p hp, hf]
    | none =>
      have hfs1 : fs1.find p = none := by rw [← hInv.1 p hp]; exact hf
      have hnotmem : p ∉ prefixesOf (R ++ x) := by
        intro hmem
        obtain ⟨hpne, hppre⟩ := mem_prefixesOf.mp hmem
        rcases prefix_of_append_cases hppre with hR | ⟨q, hqne, _, rfl⟩
        · obtain ⟨b, hb⟩ := H.rchain p hpne hR
          rw [hb] at hfs1
          cases hfs1
        · exact hp (strictUnder_append hqne)
      rw [hmiss p hf hnotmem, hfs1]
  · intro rel₀ hrel₀
    cases hf : st.find (R ++ rel₀) with
    | some m =>
      rcases hInv.2 rel₀ hrel₀ with h1 | ⟨h2, h3⟩
      · left
        rw [hkeep _ (by simp [hf])]
        exact h1
      · right
        refine ⟨?_, h3⟩
        unfold SyncedSlot at h2 ⊢
        rw [hkeep _ (by simp [hf])]
        exact h2
    | none =>
      by_cases hmem : (R ++ rel₀) ∈ prefixesOf (R ++ x)
      · obtain ⟨hpne, hppre⟩ := mem_prefixesOf.mp hmem
        have hq : rel₀ <+: x := (List.prefix_append_right_inj R).mp hppre
        obtain ⟨b, hb⟩ := hsrcdirs rel₀ hq hrel₀
        have hbt : b = true := sread_dir_true H hb
        subst hbt
        right
        constructor
        · unfold SyncedSlot
          rw [hcreate _ hf hmem, hb]
        · rw [hb]
          rfl
      · rcases hInv.2 rel₀ hrel₀ with h1 | ⟨h2, h3⟩
        · left
          rw [hmiss _ hf hmem, ← h1, hf]
        · exfalso
          unfold SyncedSlot at h2
          rw [hf] at h2
          cases hsrcf : fs1.find (S ++ rel₀) with
          | none => rw [hsrcf] at h3; cases h3
          | some n => rw [hsrcf] at h2; cases h2
  · intro rel₀ hrel₀ne hsl
    unfold SyncedSlot at hsl ⊢
    cases hf : st.find (R ++ rel₀) with
    | some m =>
      rw [hkeep _ (by simp [hf])]
      exact hsl
    | none =>
      rw [hf] at hsl
      by_cases hmem : (R ++ rel₀) ∈ prefixesOf (R ++ x)
      · exfalso
        obtain ⟨hpne, hppre⟩ := mem_prefixesOf.mp hmem
        have hq : rel₀ <+: x := (List.prefix_append_right_inj R).mp hppre
        obtain ⟨b, hb⟩ := hsrcdirs rel₀ hq hrel₀ne
        rw [hb] at hsl
        cases hsl
      · rw [hmiss _ hf hmem]
        exact hsl

theorem identical_same_file {st : FS} {a b : Path} {c : List Nat}
    (ha : st.find a = some (Node.file c true)) (hb : st.find b = some (Node.file c true)) :
    files_are_identical st a b = true := by
  unfold files_are_identical
  rw [ha, hb]
  simp [Node.st_size, calculate_file_hash, ha, hb]

theorem identical_file_diff {st : FS} {a b : Path} {c d : List Nat}
    (ha : st.find a = some (Node.file c true)) (hb : st.find b = some (Node.file d true))
    (hne : c ≠ d) : files_are_identical st a b = false := by
  unfold files_are_identical
  rw [ha, hb]
  by_cases hlen : c.length = d.length
  · simp [Node.st_size, hlen, calculate_file_hash, ha, hb, hne]
  · simp [Node.st_size, hlen]

theorem sync_item_dir_eq {st : FS} {S R rel : Path} {b : Bool}
    (h : st.find (S ++ rel) = some (Node.dir b)) :
    sync_item st S R rel =
      if (st.find (R ++ rel)).isSome then (st, [])
      else create_directory st (R ++ rel) := by
  unfold sync_item
  dsimp only
  rw [h]

theorem sync_item_file_eq {st : FS} {S R rel : Path} {c : List Nat} {r : Bool}
    (h : st.find (S ++ rel) = some (Node.file c r)) :
    sync_item st S R rel =
      if (st.find (R ++ rel)).isNone then copy_file st (S ++ rel) (R ++ rel)
      else if files_are_identical st (S ++ rel) (R ++ rel) then (st, [])
      else copy_file st (S ++ rel) (R ++ rel) := by
  unfold sync_item
  dsimp only
  rw [h]

theorem not_prefix_dropLast {rel : Path} (h : rel ≠ []) : ¬ rel <+: rel.dropLast := by
  intro hp
  have h1 := hp.length_le
  rw [List.length_dropLast] at h1
  have h2 : 1 ≤ rel.length := by
    cases rel with
    | nil => exact absurd rfl h
    | cons a t => simp
  omega

end FileSync

namespace FileSync

theorem copy_file_eq_of {st st' : FS} {src dst : Path}
    (hmk : mkdirP st dst.dropLast = some st')
    (hdir : isDirAt st' dst = false)
    (hne : (dst == src) = false)
    {c : List Nat} (hsrc : st'.find src = some (Node.file c true)) :
    copy_file st src dst = (st'.set dst (Node.file c true), [.copied src dst]) := by
  unfold copy_file
  rw [hmk]
  simp only [hdir, Bool.false_eq_true, if_false, hne, hsrc]

theorem copy_file_sync {fs1 : FS} {S R : Path} (H : SyncHyps fs1 S R)
    (st : FS) (hInv : AddInv fs1 S R st) (rel : Path) (hrelne : rel ≠ [])
    {c : List Nat} (hsrc : fs1.find (S ++ rel) = some (Node.file c true))
    (hrep : ∀ b, st.find (R ++ rel) ≠ some (Node.dir b)) :
    AddInv fs1 S R (copy_file st (S ++ rel) (R ++ rel)).1 ∧
    SyncedSlot fs1 S R (copy_file st (S ++ rel) (R ++ rel)).1 rel ∧
    (∀ rel₀, rel₀ ≠ [] → SyncedSlot fs1 S R st rel₀ →
      SyncedSlot fs1 S R (copy_file st (S ++ rel) (R ++ rel)).1 rel₀) := by
  have hsrcst : st.find (S ++ rel) = some (Node.file c true) := by
    rw [hInv.1 _ (not_strictUnder_src H.dis1 H.dis2 rel)]
    exact hsrc
  have hsrcdirs : ∀ q, q <+: rel.dropLast → q ≠ [] →
      ∃ b, fs1.find (S ++ q) = some (Node.dir b) := by
    intro q hq hqne
    have hqrel : q <+: rel := hq.trans (List.dropLast_prefix rel)
    have hqnerel : q ≠ rel := by
      intro heq
      subst heq
      exact not_prefix_dropLast hrelne hq
    have h1 : S ++ q ≠ [] := append_ne_nil_right hqne
    have h2 : S ++ q ≠ S ++ rel := by
      intro heq
      exact hqnerel (List.append_cancel_left heq)
    exact FS.ancestor_dir H.wf hsrc ((List.prefix_append_right_inj S).mpr hqrel) h1 h2
  obtain ⟨st', hmk, hkeep, hcreate, hmiss⟩ := pass_mkdirP_ok H st hInv rel.dropLast hsrcdirs
  obtain ⟨hInv', hmono'⟩ := AddInv_after_mkdirP H hInv hsrcdirs hkeep hcreate hmiss
  have hnm : (R ++ rel) ∉ prefixesOf (R ++ rel.dropLast) := by
    intro hmem
    have hpre := (mem_prefixesOf.mp hmem).2
    exact not_prefix_dropLast hrelne ((List.prefix_append_right_inj R).mp hpre)
  have hslot' : st'.find (R ++ rel) = st.find (R ++ rel) := by
    cases hf : st.find (R ++ rel) with
    | some m => rw [hkeep _ (by simp [hf]), hf]
    | none => rw [hmiss _ hf hnm]
  have hdirslot : isDirAt st' (R ++ rel) = false := by
    unfold isDirAt
    rw [hslot']
    cases hf : st.find (R ++ rel) with
    | none => rfl
    | some m =>
      cases m with
      | file _ _ => rfl
      | dir b => exact absurd hf (hrep b)
  have hmk2 : mkdirP st ((R ++ rel).dropLast) = some st' := by
    rw [List.dropLast_append_of_ne_nil R hrelne]
    exact hmk
  have hne2 : ((R ++ rel : Path) == (S ++ rel)) = false := by
    rw [beq_eq_false_iff_ne]
    intro heq
    have hRS : R = S := List.append_cancel_right heq
    exact H.dis1 (hRS ▸ List.prefix_rfl)
  have hsrc' : st'.find (S ++ rel) = some (Node.file c true) := by
    rw [hkeep _ (by simp [hsrcst])]
    exact hsrcst
  rw [copy_file_eq_of hmk2 hdirslot hne2 hsrc']
  have hset_ne : ∀ rel₀ : Path, rel₀ ≠ rel → R ++ rel₀ ≠ R ++ rel := by
    intro rel₀ hne₀ heq
    exact hne₀ (List.append_cancel_left heq)
  refine ⟨⟨?_, ?_⟩, ?_, ?_⟩
  · intro p hp
    have hpne : p ≠ R ++ rel := by
      intro heq
      subst heq
      exact hp (strictUnder_append hrelne)
    show (st'.set (R ++ rel) (Node.file c true)).find p = fs1.find p
    rw [FS.find_set, if_neg hpne]
    exact hInv'.1 p hp
  · intro rel₀ hrel₀ne
    by_cases heq : rel₀ = rel
    · subst heq
      right
      constructor
      · unfold SyncedSlot
        show (st'.set (R ++ rel₀) (Node.file c true)).find (R ++ rel₀) = _
        rw [FS.find_set, if_pos rfl, hsrc]
      · rw [hsrc]
        rfl
    · have hfind : (st'.set (R ++ rel) (Node.file c true)).find (R ++ rel₀)
          = st'.find (R ++ rel₀) := by
        rw [FS.find_set, if_neg (hset_ne rel₀ heq)]
      rcases hInv'.2 rel₀ hrel₀ne with h1 | ⟨h2, h3⟩
      · left
        show (st'.set (R ++ rel) (Node.file c true)).find (R ++ rel₀) = _
        rw [hfind]
        exact h1
      · right
        refine ⟨?_, h3⟩
        unfold SyncedSlot at h2 ⊢
        show (st'.set (R ++ rel) (Node.file c true)).find (R ++ rel₀) = _
        rw [hfind]
        exact h2
  · unfold SyncedSlot
    show (st'.set (R ++ rel) (Node.file c true)).find (R ++ rel) = _
    rw [FS.find_set, if_pos rfl, hsrc]
  · intro rel₀ hrel₀ne hsl
    have hsl' := hmono' rel₀ hrel₀ne hsl
    unfold SyncedSlot at hsl' ⊢
    by_cases heq : rel₀ = rel
    · subst heq
      show (st'.set (R ++ rel₀) (Node.file c true)).find (R ++ rel₀) = _
      rw [FS.find_set, if_pos rfl, hsrc]
    · show (st'.set (R ++ rel) (Node.file c true)).find (R ++ rel₀) = _
      rw [FS.find_set, if_neg (hset_ne rel₀ heq)]
      exact hsl'

end FileSync

namespace FileSync

theorem sync_item_step {fs1 : FS} {S R : Path} (H : SyncHyps fs1 S R)
    (st : FS) (hInv : AddInv fs1 S R st)
    (rel : Path) (hrel : rel ∈ walkPaths fs1 S) :
    AddInv fs1 S R (sync_item st S R rel).1 ∧
    SyncedSlot fs1 S R (sync_item st S R rel).1 rel ∧
    (∀ rel₀, rel₀ ≠ [] → SyncedSlot fs1 S R st rel₀ →
      SyncedSlot fs1 S R (sync_item st S R rel).1 rel₀) := by
  have hSread : isReadableDir fs1 S = true := by
    unfold isReadableDir
    rw [H.sroot]
  obtain ⟨hsome, hrelne⟩ := (mem_walkPaths_iff H.wf hSread H.sread rel).mp hrel
  have hsrcst_eq : st.find (S ++ rel) = fs1.find (S ++ rel) :=
    hInv.1 _ (not_strictUnder_src H.dis1 H.dis2 rel)
  cases hsrc : fs1.find (S ++ rel) with
  | none => rw [hsrc] at hsome; cases hsome
  | some n =>
    have hsrcst : st.find (S ++ rel) = some n := by rw [hsrcst_eq, hsrc]
    cases n with
    | dir b =>
      have hbt := sread_dir_true H hsrc
      subst hbt
      rw [sync_item_dir_eq hsrcst]
      by_cases hrepb : (st.find (R ++ rel)).isSome = true
      · rw [if_pos hrepb]
        refine ⟨hInv, ?_, fun rel₀ _ hs => hs⟩
        cases hrepf : st.find (R ++ rel) with
        | none => rw [hrepf] at hrepb; simp at hrepb
        | some m =>
          rcases hInv.2 rel hrelne with h1 | ⟨h2, _⟩
          · have hf1 : fs1.find (R ++ rel) = some m := by rw [← h1]; exact hrepf
            cases m with
            | file c r => exact absurd hf1 (H.mis1 rel true c r hsrc)
            | dir b2 =>
              have hb2 := rread_dir_true H hf1
              subst hb2
              unfold SyncedSlot
              rw [hrepf, hsrc]
          · exact h2
      · rw [if_neg hrepb]
        have hrepn : st.find (R ++ rel) = none := by
          cases hx : st.find (R ++ rel) with
          | none => rfl
          | some m => rw [hx] at hrepb; simp at hrepb
        have hsrcdirs : ∀ q, q <+: rel → q ≠ [] →
            ∃ b2, fs1.find (S ++ q) = some (Node.dir b2) := by
          intro q hq hqne
          by_cases hqr : q = rel
          · subst hqr
            exact ⟨true, hsrc⟩
          · refine FS.ancestor_dir H.wf hsrc ((List.prefix_append_right_inj S).mpr hq)
              (append_ne_nil_right hqne) ?_
            intro heq
            exact hqr (List.append_cancel_left heq)
        obtain ⟨st', hmk, hkeep, hcreate, hmiss⟩ := pass_mkdirP_ok H st hInv rel hsrcdirs
        obtain ⟨hInv', hmono'⟩ := AddInv_after_mkdirP H hInv hsrcdirs hkeep hcreate hmiss
        unfold create_directory
        rw [hmk]
        refine ⟨hInv', ?_, hmono'⟩
        have hmemp : (R ++ rel) ∈ prefixesOf (R ++ rel) :=
          mem_prefixesOf.mpr ⟨append_ne_nil_right hrelne, List.prefix_rfl⟩
        unfold SyncedSlot
        show st'.find (R ++ rel) = _
        rw [hcreate _ hrepn hmemp, hsrc]
    | file c r =>
      have hrt := sread_file_true H hsrc
      subst hrt
      rw [sync_item_file_eq hsrcst]
      by_cases hrepb : (st.find (R ++ rel)).isNone = true
      · rw [if_pos hrepb]
        have hrepn : st.find (R ++ rel) = none := Option.isNone_iff_eq_none.mp hrepb
        exact copy_file_sync H st hInv rel hrelne hsrc
          (fun b hcontra => by rw [hcontra] at hrepn; cases hrepn)
      · rw [if_neg hrepb]
        have hrepm : ∃ m, st.find (R ++ rel) = some m := by
          cases hx : st.find (R ++ rel) with
          | none => rw [hx] at hrepb; simp at hrepb
          | some m => exact ⟨m, rfl⟩
        obtain ⟨m, hrepf⟩ := hrepm
        rcases hInv.2 rel hrelne with h1 | ⟨h2, _⟩
        · have hf1 : fs1.find (R ++ rel) = some m := by rw [← h1]; exact hrepf
          cases m with
          | dir b2 => exact absurd hf1 (H.mis2 rel c true b2 hsrc)
          | file d rb =>
            have hrb := rread_file_true H hf1
            subst hrb
            by_cases hdc : d = c
            · subst hdc
              have hid : files_are_identical st (S ++ rel) (R ++ rel) = true :=
                identical_same_file hsrcst hrepf
              rw [if_pos hid]
              refine ⟨hInv, ?_, fun rel₀ _ hs => hs⟩
              unfold SyncedSlot
              rw [hrepf, hsrc]
            · have hid : files_are_identical st (S ++ rel) (R ++ rel) = false :=
                identical_file_diff hsrcst hrepf (fun hcc => hdc hcc.symm)
              rw [if_neg (by simp [hid])]
              exact copy_file_sync H st hInv rel hrelne hsrc
                (fun b2 hcontra => by rw [hcontra] at hrepf; cases hrepf)
        · have hrepf2 : st.find (R ++ rel) = some (Node.file c true) := by
            unfold SyncedSlot at h2
            rw [h2, hsrc]
          have hid : files_are_identical st (S ++ rel) (R ++ rel) = true :=
            identical_same_file hsrcst hrepf2
          rw [if_pos hid]
          exact ⟨hInv, h2, fun rel₀ _ hs => hs⟩

end FileSync

namespace FileSync

/-! ### Additive-pass fold -/

theorem additivePass_inv {fs1 : FS} {S R : Path} (H : SyncHyps fs1 S R) :
    ∀ l : List Path, (∀ rel ∈ l, rel ∈ walkPaths fs1 S) → ∀ st : FS, AddInv fs1 S R st →
      AddInv fs1 S R (additivePass S R st l).1 ∧
      (∀ rel ∈ l, SyncedSlot fs1 S R (additivePass S R st l).1 rel) ∧
      (∀ rel₀, rel₀ ≠ [] → SyncedSlot fs1 S R st rel₀ →
        SyncedSlot fs1 S R (additivePass S R st l).1 rel₀) := by
  intro l
  induction l with
  | nil =>
    intro _ st hInv
    exact ⟨hInv, by simp, fun rel₀ _ hs => hs⟩
  | cons rel rest ih =>
    intro hmem st hInv
    have hrel := hmem rel (List.mem_cons_self rel rest)
    obtain ⟨hInv1, hsl1, hmono1⟩ := sync_item_step H st hInv rel hrel
    have hrest : ∀ r2 ∈ rest, r2 ∈ walkPaths fs1 S :=
      fun r2 hr2 => hmem r2 (List.mem_cons_of_mem rel hr2)
    obtain ⟨hInv2, hsl2, hmono2⟩ := ih hrest (sync_item st S R rel).1 hInv1
    refine ⟨hInv2, ?_, ?_⟩
    · intro r2 hr2
      rcases List.mem_cons.mp hr2 with heq | hr2m
      · subst heq
        have hne := reachable_ne_nil (mem_walkPaths.mp hrel)
        exact hmono2 r2 hne hsl1
      · exact hsl2 r2 hr2m
    · intro rel₀ hne hs
      exact hmono2 rel₀ hne (hmono1 rel₀ hne hs)

/-! ### Subtractive-pass machinery -/

theorem contains_iff_mem_path {l : List Path} {a : Path} : l.contains a = true ↔ a ∈ l := by
  unfold List.contains
  exact List.elem_iff

theorem remove_path_find_not_under {fs : FS} {x p : Path} (h : ¬ x <+: p) :
    (remove_path fs x).1.find p = fs.find p := by
  unfold remove_path
  cases hf : fs.find x with
  | none => rfl
  | some m =>
    cases m with
    | file c r =>
      show (fs.removeKey x).find p = fs.find p
      have hpx : p ≠ x := by
        intro heq
        subst heq
        exact h List.prefix_rfl
      rw [FS.find_removeKey, if_neg hpx]
    | dir b =>
      show (fs.removeSubtree x).find p = fs.find p
      rw [FS.find_removeSubtree, if_neg h]

theorem remove_path_find_self {fs : FS} {x : Path} :
    (remove_path fs x).1.find x = none := by
  unfold remove_path
  cases hf : fs.find x with
  | none => exact hf
  | some m =>
    cases m with
    | file c r =>
      show (fs.removeKey x).find x = none
      rw [FS.find_removeKey, if_pos rfl]
    | dir b =>
      show (fs.removeSubtree x).find x = none
      rw [FS.find_removeSubtree, if_pos List.prefix_rfl]

theorem remove_path_find_mono {fs : FS} {x p : Path} (h : fs.find p = none) :
    (remove_path fs x).1.find p = none := by
  unfold remove_path
  cases hf : fs.find x with
  | none => exact h
  | some m =>
    cases m with
    | file c r =>
      show (fs.removeKey x).find p = none
      rw [FS.find_removeKey]
      by_cases hpx : p = x
      · rw [if_pos hpx]
      · rw [if_neg hpx]
        exact h
    | dir b =>
      show (fs.removeSubtree x).find p = none
      rw [FS.find_removeSubtree]
      by_cases hpx : x <+: p
      · rw [if_pos hpx]
      · rw [if_neg hpx]
        exact h

theorem remove_path_find_cases (fs : FS) (x p : Path) :
    (remove_path fs x).1.find p = fs.find p ∨ (remove_path fs x).1.find p = none := by
  by_cases h : x <+: p
  · cases hf : fs.find x with
    | none =>
      left
      unfold remove_path
      rw [hf]
    | some m =>
      cases m with
      | file c r =>
        by_cases hpx : p = x
        · right
          subst hpx
          exact remove_path_find_self
        · left
          unfold remove_path
          rw [hf]
          show (fs.removeKey x).find p = fs.find p
          rw [FS.find_removeKey, if_neg hpx]
      | dir b =>
        right
        unfold remove_path
        rw [hf]
        show (fs.removeSubtree x).find p = none
        rw [FS.find_removeSubtree, if_pos h]
  · left
    exact remove_path_find_not_under h

/-- Invariant of the subtractive pass. -/
def SubInv (fs1 : FS) (S R : Path) (st : FS) : Prop :=
  AddFrame fs1 st R ∧
  (∀ rel ∈ walkPaths fs1 S, SyncedSlot fs1 S R st rel) ∧
  (∀ rel : Path, rel ≠ [] → rel ∉ walkPaths fs1 S →
    st.find (R ++ rel) = fs1.find (R ++ rel) ∨ st.find (R ++ rel) = none)

theorem remove_step {fs1 : FS} {S R : Path}
    (st : FS) (hInv : SubInv fs1 S R st) (q : Path) (hqne : q ≠ [])
    (hq : q ∉ walkPaths fs1 S) :
    SubInv fs1 S R (remove_path st (R ++ q)).1 ∧
    (remove_path st (R ++ q)).1.find (R ++ q) = none ∧
    (∀ p, st.find p = none → (remove_path st (R ++ q)).1.find p = none) := by
  refine ⟨⟨?_, ?_, ?_⟩, remove_path_find_self, fun p hp => remove_path_find_mono hp⟩
  · intro p hp
    have hnu : ¬ (R ++ q) <+: p := by
      intro hpre
      apply hp
      constructor
      · exact (List.prefix_append R q).trans hpre
      · intro heq
        subst heq
        have h1 := hpre.length_le
        rw [List.length_append] at h1
        have h2 : 1 ≤ q.length := by
          cases q with
          | nil => exact absurd rfl hqne
          | cons a t => simp
        omega
    rw [remove_path_find_not_under hnu]
    exact hInv.1 p hp
  · intro rel hrel
    have hnu : ¬ (R ++ q) <+: (R ++ rel) := by
      intro hpre
      have hqrel : q <+: rel := (List.prefix_append_right_inj R).mp hpre
      exact hq (walkPaths_prefix_closed hrel hqrel hqne)
    unfold SyncedSlot
    rw [remove_path_find_not_under hnu]
    exact hInv.2.1 rel hrel
  · intro rel hrelne hrelmem
    rcases remove_path_find_cases st (R ++ q) (R ++ rel) with h1 | h1
    · rw [h1]
      exact hInv.2.2 rel hrelne hrelmem
    · right
      exact h1

theorem subtractivePass_inv {fs1 : FS} {S R : Path} {srcW : List Path}
    (hsrcW : ∀ rel : Path, rel ∈ srcW ↔ rel ∈ walkPaths fs1 S) :
    ∀ l : List Path, (∀ rel ∈ l, rel ≠ []) → ∀ st : FS, SubInv fs1 S R st →
      SubInv fs1 S R (subtractivePass R srcW st l).1 ∧
      (∀ rel ∈ l, rel ∉ walkPaths fs1 S →
        (subtractivePass R srcW st l).1.find (R ++ rel) = none) ∧
      (∀ p, st.find p = none → (subtractivePass R srcW st l).1.find p = none) := by
  intro l
  induction l with
  | nil =>
    intro _ st hInv
    exact ⟨hInv, by simp, fun p hp => hp⟩
  | cons rel rest ih =>
    intro hne st hInv
    have hrelne := hne rel (List.mem_cons_self rel rest)
    have hrest : ∀ r2 ∈ rest, r2 ≠ [] :=
      fun r2 hr2 => hne r2 (List.mem_cons_of_mem rel hr2)
    by_cases hc : srcW.contains rel = true
    · have hstep : subtractivePass R srcW st (rel :: rest) = subtractivePass R srcW st rest := by
        simp only [subtractivePass]
        rw [if_pos hc]
      rw [hstep]
      obtain ⟨hInv2, hmid, hmono⟩ := ih hrest st hInv
      refine ⟨hInv2, ?_, hmono⟩
      intro r2 hr2 hr2n
      rcases List.mem_cons.mp hr2 with heq | hr2m
      · subst heq
        exact absurd ((hsrcW r2).mp (contains_iff_mem_path.mp hc)) hr2n
      · exact hmid r2 hr2m hr2n
    · have hcf : srcW.contains rel = false := by
        cases hx : srcW.contains rel with
        | true => exact absurd hx hc
        | false => rfl
      have hrelnotin : rel ∉ walkPaths fs1 S := by
        intro hmem
        exact hc (contains_iff_mem_path.mpr ((hsrcW rel).mpr hmem))
      have hstep : (subtractivePass R srcW st (rel :: rest)).1 =
          (subtractivePass R srcW (remove_path st (R ++ rel)).1 rest).1 := by
        simp only [subtractivePass]
        rw [if_neg hc]
      obtain ⟨hInv1, hself, hmono1⟩ := remove_step st hInv rel hrelne hrelnotin
      obtain ⟨hInv2, hmid, hmono2⟩ := ih hrest (remove_path st (R ++ rel)).1 hInv1
      rw [hstep]
      refine ⟨hInv2, ?_, ?_⟩
      · intro r2 hr2 hr2n
        rcases List.mem_cons.mp hr2 with heq | hr2m
        · subst heq
          exact hmono2 _ hself
        · exact hmid r2 hr2m hr2n
      · intro p hp
        exact hmono2 p (hmono1 p hp)

end FileSync

namespace FileSync

theorem passes_spec {fs1 : FS} {S R : Path} (H : SyncHyps fs1 S R) :
    (∀ rel : Path, rel ≠ [] →
      (subtractivePass R (walkPaths fs1 S)
        (additivePass S R fs1 (walkPaths fs1 S)).1 (walkPaths fs1 R)).1.find (R ++ rel)
        = fs1.find (S ++ rel)) ∧
    AddFrame fs1 (subtractivePass R (walkPaths fs1 S)
      (additivePass S R fs1 (walkPaths fs1 S)).1 (walkPaths fs1 R)).1 R := by
  have hSread : isReadableDir fs1 S = true := by
    unfold isReadableDir
    rw [H.sroot]
  have hRread : isReadableDir fs1 R = true := by
    unfold isReadableDir
    rw [H.rroot]
  have hInv0 : AddInv fs1 S R fs1 := ⟨fun p _ => rfl, fun rel _ => Or.inl rfl⟩
  obtain ⟨hInv2, hslots, _⟩ :=
    additivePass_inv H (walkPaths fs1 S) (fun rel h => h) fs1 hInv0
  have hSub0 : SubInv fs1 S R (additivePass S R fs1 (walkPaths fs1 S)).1 := by
    refine ⟨hInv2.1, hslots, ?_⟩
    intro rel hrelne hrelnot
    rcases hInv2.2 rel hrelne with h1 | ⟨_, h3⟩
    · exact Or.inl h1
    · exact absurd ((mem_walkPaths_iff H.wf hSread H.sread rel).mpr ⟨h3, hrelne⟩) hrelnot
  obtain ⟨hSubF, hmid, _⟩ := subtractivePass_inv (fun rel => Iff.rfl)
    (walkPaths fs1 R) (fun rel h => reachable_ne_nil (mem_walkPaths.mp h))
    (additivePass S R fs1 (walkPaths fs1 S)).1 hSub0
  constructor
  · intro rel hrelne
    by_cases hmem : rel ∈ walkPaths fs1 S
    · exact hSubF.2.1 rel hmem
    · have hsrcnone : fs1.find (S ++ rel) = none := by
        cases hf : fs1.find (S ++ rel) with
        | none => rfl
        | some n =>
          exact absurd ((mem_walkPaths_iff H.wf hSread H.sread rel).mpr
            ⟨by simp [hf], hrelne⟩) hmem
      rw [hsrcnone]
      by_cases hrep : rel ∈ walkPaths fs1 R
      · exact hmid rel hrep hmem
      · rcases hSubF.2.2 rel hrelne hmem with h1 | h1
        · rw [h1]
          cases hf : fs1.find (R ++ rel) with
          | none => rfl
          | some n =>
            exact absurd ((mem_walkPaths_iff H.wf hRread H.rread rel).mpr
              ⟨by simp [hf], hrelne⟩) hrep
        · exact h1
  · exact hSubF.1

theorem synchronize_converges {fs0 : FS} {S R : Path}
    (hWF : fs0.WF)
    (hd1 : ¬ S <+: R) (hd2 : ¬ R <+: S)
    (hsroot : fs0.find S = some (Node.dir true))
    (hsread : allReadableUnder fs0 S = true)
    (hrread : allReadableUnder fs0 R = true)
    (hrroot : fs0.find R = none ∨ fs0.find R = some (Node.dir true))
    (hrparents : ∀ q ∈ prefixesOf R, isFileAt fs0 q = false)
    (hmis : noMismatch fs0 S R = true)
    (hRne : R ≠ []) :
    syncCompleted fs0 S R = true ∧
    (∀ rel : Path, rel ≠ [] → (syncFS fs0 S R).find (R ++ rel) = fs0.find (S ++ rel)) ∧
    (∀ p : Path, ¬ strictUnder R p → ¬ p <+: R → (syncFS fs0 S R).find p = fs0.find p) := by
  have hany : (prefixesOf R).any (fun q => isFileAt fs0 q) = false := by
    rw [List.any_eq_false]
    intro q hq
    simp [hrparents q hq]
  cases hmk : mkdirP fs0 R with
  | none =>
    exfalso
    unfold mkdirP at hmk
    rw [if_neg (by simp [hany])] at hmk
    cases hmk
  | some fs1 =>
    have hfs1S : fs1.find S = some (Node.dir true) := by
      rw [mkdirP_find_of_isSome hmk (by simp [hsroot])]
      exact hsroot
    have hfs1R : fs1.find R = some (Node.dir true) := by
      rcases hrroot with h0 | h0
      · rw [mkdirP_find hmk R, h0]
        have hmem : R ∈ prefixesOf R := mem_prefixesOf.mpr ⟨hRne, List.prefix_rfl⟩
        simp [hmem]
      · rw [mkdirP_find_of_isSome hmk (by simp [h0]), h0]
    have htrans : ∀ p n, fs1.find p = some n → fs0.find p = some n ∨ n = Node.dir true := by
      intro p n h
      rw [mkdirP_find hmk p] at h
      cases hf : fs0.find p with
      | some m =>
        rw [hf] at h
        exact Or.inl h
      | none =>
        rw [hf] at h
        by_cases hq : p ∈ prefixesOf R
        · rw [if_pos hq] at h
          exact Or.inr (Option.some.inj h).symm
        · rw [if_neg hq] at h
          cases h
    have hsread1 : ∀ p n, S <+: p → fs1.find p = some n → nodeReadable n = true := by
      intro p n hp h
      rcases htrans p n h with h0 | h0
      · exact allReadableUnder_spec hsread hp h0
      · rw [h0]
        rfl
    have hrread1 : ∀ p n, R <+: p → fs1.find p = some n → nodeReadable n = true := by
      intro p n hp h
      rcases htrans p n h with h0 | h0
      · exact allReadableUnder_spec hrread hp h0
      · rw [h0]
        rfl
    have hrchain : ∀ q, q ≠ [] → q <+: R → ∃ b, fs1.find q = some (Node.dir b) :=
      fun q hne hq => mkdirP_prefix_dir hmk q (mem_prefixesOf.mpr ⟨hne, hq⟩)
    have hSside : ∀ rel : Path, fs1.find (S ++ rel) = fs0.find (S ++ rel) := by
      intro rel
      apply mkdirP_frame hmk
      intro hpre
      exact hd1 ((List.prefix_append S rel).trans hpre)
    have hRside : ∀ rel : Path, rel ≠ [] → fs1.find (R ++ rel) = fs0.find (R ++ rel) := by
      intro rel hne
      apply mkdirP_frame hmk
      intro hpre
      have h1 := hpre.length_le
      rw [List.length_append] at h1
      have h2 : 1 ≤ rel.length := by
        cases rel with
        | nil => exact absurd rfl hne
        | cons a t => simp
      omega
    have hmis1 : ∀ rel b c r, fs1.find (S ++ rel) = some (Node.dir b) →
        fs1.find (R ++ rel) ≠ some (Node.file c r) := by
      intro rel b c r hs hr
      by_cases hrelne : rel = []
      · subst hrelne
        rw [List.append_nil, hfs1R] at hr
        cases hr
      · rw [hSside rel] at hs
        rw [hRside rel hrelne] at hr
        exact noMismatch_dir_file hmis hs hr
    have hmis2 : ∀ rel c r b, fs1.find (S ++ rel) = some (Node.file c r) →
        fs1.find (R ++ rel) ≠ some (Node.dir b) := by
      intro rel c r b hs hr
      by_cases hrelne : rel = []
      · subst hrelne
        rw [List.append_nil, hfs1S] at hs
        cases hs
      · rw [hSside rel] at hs
        rw [hRside rel hrelne] at hr
        exact noMismatch_file_dir hmis hs hr
    have H : SyncHyps fs1 S R :=
      ⟨mkdirP_WF hWF hmk, hd1, hd2, hfs1S, hfs1R, hsread1, hrread1, hrchain, hmis1, hmis2⟩
    have hred : synchronize fs0 S R = Except.ok
        ((subtractivePass R (walkPaths fs1 S) (additivePass S R fs1 (walkPaths fs1 S)).1
          (walkPaths fs1 R)).1,
         [LogEntry.started S R] ++ (get_directory_structure fs1 S).2
           ++ (get_directory_structure fs1 R).2
           ++ (additivePass S R fs1 (walkPaths fs1 S)).2
           ++ (subtractivePass R (walkPaths fs1 S) (additivePass S R fs1 (walkPaths fs1 S)).1
             (walkPaths fs1 R)).2 ++ [LogEntry.completed]) := by
      unfold synchronize
      rw [if_neg (by simp [hsroot]), hmk]
      rfl
    obtain ⟨hpoint, hframe⟩ := passes_spec H
    refine ⟨?_, ?_, ?_⟩
    · unfold syncCompleted
      rw [hred]
    · intro rel hrelne
      unfold syncFS
      rw [hred]
      rw [hpoint rel hrelne, hSside rel]
    · intro p hp1 hp2
      unfold syncFS
      rw [hred]
      show (subtractivePass R (walkPaths fs1 S) (additivePass S R fs1 (walkPaths fs1 S)).1
        (walkPaths fs1 R)).1.find p = fs0.find p
      rw [hframe p hp1]
      exact mkdirP_frame hmk hp2

end FileSync

namespace FileSync

theorem synchronize_noop {fs : FS} {S R : Path}
    (hWF : fs.WF)
    (hd1 : ¬ S <+: R) (hd2 : ¬ R <+: S)
    (hsroot : fs.find S = some (Node.dir true))
    (hrroot : fs.find R = some (Node.dir true))
    (hsread : allReadableUnder fs S = true)
    (hrread : allReadableUnder fs R = true)
    (hsync : syncedB fs S R = true) :
    synchronize fs S R = .ok (fs, [LogEntry.started S R, LogEntry.completed]) := by
  have hsyncP := syncedB_spec hsync
  have hmkid : mkdirP fs R = some fs := by
    apply mkdirP_id
    intro q hq
    obtain ⟨hqne, hqpre⟩ := mem_prefixesOf.mp hq
    by_cases hqr : q = R
    · subst hqr
      refine ⟨by simp [hrroot], ?_⟩
      unfold isFileAt
      rw [hrroot]
    · obtain ⟨b, hb⟩ := FS.ancestor_dir hWF hrroot hqpre hqne hqr
      refine ⟨by simp [hb], ?_⟩
      unfold isFileAt
      rw [hb]
  have hSread : isReadableDir fs S = true := by
    unfold isReadableDir
    rw [hsroot]
  have hRread : isReadableDir fs R = true := by
    unfold isReadableDir
    rw [hrroot]
  have hsreadF : ∀ p n, S <+: p → fs.find p = some n → nodeReadable n = true :=
    fun p n hp hf => allReadableUnder_spec hsread hp hf
  have hrreadF : ∀ p n, R <+: p → fs.find p = some n → nodeReadable n = true :=
    fun p n hp hf => allReadableUnder_spec hrread hp hf
  have hitem : ∀ rel ∈ walkPaths fs S, sync_item fs S R rel = (fs, []) := by
    intro rel hrel
    obtain ⟨hsome, hrelne⟩ := (mem_walkPaths_iff hWF hSread hsreadF rel).mp hrel
    cases hsrc : fs.find (S ++ rel) with
    | none => rw [hsrc] at hsome; cases hsome
    | some n =>
      have hrep : fs.find (R ++ rel) = some n := by rw [hsyncP rel hrelne, hsrc]
      cases n with
      | dir b =>
        rw [sync_item_dir_eq hsrc, if_pos (by simp [hrep])]
      | file c r =>
        have hrt : r = true := by
          have h2 := hsreadF _ _ (List.prefix_append S rel) hsrc
          simpa [nodeReadable] using h2
        subst hrt
        rw [sync_item_file_eq hsrc, if_neg (by simp [hrep]),
          if_pos (identical_same_file hsrc hrep)]
  have haddid : ∀ l : List Path, (∀ rel ∈ l, rel ∈ walkPaths fs S) →
      additivePass S R fs l = (fs, []) := by
    intro l
    induction l with
    | nil => intro _; rfl
    | cons rel rest ih =>
      intro hmem
      have h1 := hitem rel (hmem rel (List.mem_cons_self rel rest))
      have h2 := ih (fun r2 hr2 => hmem r2 (List.mem_cons_of_mem rel hr2))
      simp [additivePass, h1, h2]
  have hrepmem : ∀ rel : Path, rel ∈ walkPaths fs R → rel ∈ walkPaths fs S := by
    intro rel hrel
    obtain ⟨hsome, hrelne⟩ := (mem_walkPaths_iff hWF hRread hrreadF rel).mp hrel
    refine (mem_walkPaths_iff hWF hSread hsreadF rel).mpr ⟨?_, hrelne⟩
    rw [← hsyncP rel hrelne]
    exact hsome
  have hsubid : ∀ l : List Path, (∀ rel ∈ l, rel ∈ walkPaths fs S) →
      subtractivePass R (walkPaths fs S) fs l = (fs, []) := by
    intro l
    induction l with
    | nil => intro _; rfl
    | cons rel rest ih =>
      intro hmem
      have hc : (walkPaths fs S).contains rel = true :=
        contains_iff_mem_path.mpr (hmem rel (List.mem_cons_self rel rest))
      have h2 := ih (fun r2 hr2 => hmem r2 (List.mem_cons_of_mem rel hr2))
      simp only [subtractivePass]
      rw [if_pos hc]
      exact h2
  have hADD : additivePass S R fs (walkPaths fs S) = (fs, []) :=
    haddid _ (fun r h => h)
  have hSUB : subtractivePass R (walkPaths fs S) fs (walkPaths fs R) = (fs, []) :=
    hsubid _ hrepmem
  unfold synchronize
  rw [if_neg (by simp [hsroot]), hmkid]
  simp only [get_directory_structure, hADD, hSUB]
  rfl

end FileSync

namespace FileSync

/-! ### Frame lemmas: a pass only touches paths below or above the replica root -/

theorem walk_ne_nil {fs : FS} {root : Path} :
    ∀ rel ∈ walkPaths fs root, rel ≠ [] :=
  fun _ h => reachable_ne_nil (mem_walkPaths.mp h)

theorem create_directory_frame (st : FS) (x p : Path) (h1 : ¬ p <+: x) :
    (create_directory st x).1.find p = st.find p := by
  unfold create_directory
  cases hmk : mkdirP st x with
  | some st' => exact mkdirP_frame hmk h1
  | none => rfl

theorem copy_file_frame (st : FS) (src dst p : Path)
    (h1 : ¬ p <+: dst.dropLast) (h2 : p ≠ dst) (h3 : p ≠ dst ++ [src.getLastD ""]) :
    (copy_file st src dst).1.find p = st.find p := by
  unfold copy_file
  cases hmk : mkdirP st dst.dropLast with
  | none => rfl
  | some st' =>
    have hst' : st'.find p = st.find p := mkdirP_frame hmk h1
    dsimp only
    by_cases hd : isDirAt st' dst = true
    · simp only [if_pos hd]
      split
      · exact hst'
      · split
        · split
          · exact hst'
          · dsimp only
            rw [FS.find_set, if_neg h3]
            exact hst'
        · exact hst'
    · simp only [if_neg hd]
      split
      · exact hst'
      · split
        · dsimp only
          rw [FS.find_set, if_neg h2]
          exact hst'
        · exact hst'

theorem sync_item_frame (st : FS) (S R rel : Path) (_hrelne : rel ≠ [])
    (p : Path) (h1 : ¬ p <+: R) (h2 : ¬ R <+: p) :
    (sync_item st S R rel).1.find p = st.find p := by
  have hpnotpre : ¬ p <+: R ++ rel := by
    intro hp
    rcases List.prefix_or_prefix_of_prefix hp (List.prefix_append R rel) with h | h
    · exact h1 h
    · exact h2 h
  have hpne1 : p ≠ R ++ rel := by
    intro he
    subst he
    exact h2 (List.prefix_append R rel)
  have hpne2 : p ≠ (R ++ rel) ++ [(S ++ rel).getLastD ""] := by
    intro he
    subst he
    exact h2 ((List.prefix_append R rel).trans (List.prefix_append _ _))
  have hpnotdrop : ¬ p <+: (R ++ rel).dropLast := by
    intro hp
    exact hpnotpre (hp.trans (List.dropLast_prefix _))
  unfold sync_item
  dsimp only
  split
  · split
    · rfl
    · exact create_directory_frame st (R ++ rel) p hpnotpre
  · split
    · exact copy_file_frame st (S ++ rel) (R ++ rel) p hpnotdrop hpne1 hpne2
    · split
      · rfl
      · exact copy_file_frame st (S ++ rel) (R ++ rel) p hpnotdrop hpne1 hpne2

theorem additivePass_frame (S R : Path) :
    ∀ l : List Path, (∀ rel ∈ l, rel ≠ []) → ∀ st : FS, ∀ p : Path,
      ¬ p <+: R → ¬ R <+: p → (additivePass S R st l).1.find p = st.find p := by
  intro l
  induction l with
  | nil =>
    intro _ st p _ _
    rfl
  | cons rel rest ih =>
    intro hne st p h1 h2
    have hstep := sync_item_frame st S R rel (hne rel (List.mem_cons_self rel rest)) p h1 h2
    have hrec := ih (fun r hr => hne r (List.mem_cons_of_mem rel hr))
      (sync_item st S R rel).1 p h1 h2
    calc (additivePass S R st (rel :: rest)).1.find p
        = (additivePass S R (sync_item st S R rel).1 rest).1.find p := rfl
      _ = (sync_item st S R rel).1.find p := hrec
      _ = st.find p := hstep

theorem subtractivePass_frame (R : Path) (srcW : List Path) :
    ∀ l : List Path, (∀ rel ∈ l, rel ≠ []) → ∀ st : FS, ∀ p : Path,
      ¬ p <+: R → ¬ R <+: p → (subtractivePass R srcW st l).1.find p = st.find p := by
  intro l
  induction l with
  | nil =>
    intro _ st p _ _
    rfl
  | cons rel rest ih =>
    intro hne st p h1 h2
    have hrelne := hne rel (List.mem_cons_self rel rest)
    have hrest := fun r hr => hne r (List.mem_cons_of_mem rel hr)
    by_cases hc : srcW.contains rel = true
    · have hstep : subtractivePass R srcW st (rel :: rest) = subtractivePass R srcW st rest := by
        simp only [subtractivePass]
        rw [if_pos hc]
      rw [hstep]
      exact ih hrest st p h1 h2
    · have hstep : (subtractivePass R srcW st (rel :: rest)).1 =
          (subtractivePass R srcW (remove_path st (R ++ rel)).1 rest).1 := by
        simp only [subtractivePass]
        rw [if_neg hc]
      rw [hstep]
      have hrm : (remove_path st (R ++ rel)).1.find p = st.find p := by
        apply remove_path_find_not_under
        intro hp
        exact h2 ((List.prefix_append R rel).trans hp)
      rw [ih hrest (remove_path st (R ++ rel)).1 p h1 h2, hrm]

theorem synchronize_frame (fs : FS) (S R p : Path)
    (h1 : ¬ p <+: R) (h2 : ¬ R <+: p) :
    (syncFS fs S R).find p = fs.find p := by
  unfold syncFS synchronize
  by_cases hs : (fs.find S).isNone = true
  · rw [if_pos hs]
  · rw [if_neg hs]
    cases hmk : mkdirP fs R with
    | none => rfl
    | some fs1 =>
      dsimp only
      show (subtractivePass R (walkPaths fs1 S) (additivePass S R fs1 (walkPaths fs1 S)).1
        (walkPaths fs1 R)).1.find p = fs.find p
      rw [subtractivePass_frame R (walkPaths fs1 S) (walkPaths fs1 R) walk_ne_nil _ p h1 h2,
        additivePass_frame S R (walkPaths fs1 S) walk_ne_nil fs1 p h1 h2]
      exact mkdirP_frame hmk h1

/-! ### The replica root entry is preserved through the passes -/

theorem mkdirP_keeps {st st' : FS} {x : Path} (h : mkdirP st x = some st')
    {p : Path} {n : Node} (hp : st.find p = some n) : st'.find p = some n := by
  rw [mkdirP_find_of_isSome h (by simp [hp])]
  exact hp

theorem create_directory_keeps (st : FS) (x : Path) {p : Path} {n : Node}
    (hp : st.find p = some n) : (create_directory st x).1.find p = some n := by
  unfold create_directory
  cases hmk : mkdirP st x with
  | some st' => exact mkdirP_keeps hmk hp
  | none => exact hp

theorem copy_file_keeps (st : FS) (src dst : Path) {p : Path}
    (hp1 : p ≠ dst) (hp2 : p ≠ dst ++ [src.getLastD ""]) {n : Node}
    (hp : st.find p = some n) : (copy_file st src dst).1.find p = some n := by
  unfold copy_file
  cases hmk : mkdirP st dst.dropLast with
  | none => exact hp
  | some st' =>
    have hst' : st'.find p = some n := mkdirP_keeps hmk hp
    dsimp only
    by_cases hd : isDirAt st' dst = true
    · simp only [if_pos hd]
      split
      · exact hst'
      · split
        · split
          · exact hst'
          · dsimp only
            rw [FS.find_set, if_neg hp2]
            exact hst'
        · exact hst'
    · simp only [if_neg hd]
      split
      · exact hst'
      · split
        · dsimp only
          rw [FS.find_set, if_neg hp1]
          exact hst'
        · exact hst'

theorem sync_item_keeps_root (st : FS) (S R rel : Path) (hrelne : rel ≠ [])
    {n : Node} (h : st.find R = some n) : (sync_item st S R rel).1.find R = some n := by
  have hp1 : R ≠ R ++ rel := by
    intro he
    exact hrelne (append_eq_nil_of_eq he.symm)
  have hp2 : R ≠ (R ++ rel) ++ [(S ++ rel).getLastD ""] := by
    intro he
    have hlen := congrArg List.length he
    rw [List.length_append, List.length_append] at hlen
    simp only [List.length_cons, List.length_nil] at hlen
    omega
  unfold sync_item
  dsimp only
  split
  · split
    · exact h
    · exact create_directory_keeps st (R ++ rel) h
  · split
    · exact copy_file_keeps st (S ++ rel) (R ++ rel) hp1 hp2 h
    · split
      · exact h
      · exact copy_file_keeps st (S ++ rel) (R ++ rel) hp1 hp2 h

theorem remove_path_keeps_root (st : FS) (R rel : Path) (hrelne : rel ≠ []) :
    (remove_path st (R ++ rel)).1.find R = st.find R := by
  apply remove_path_find_not_under
  intro hp
  have h1 := hp.length_le
  rw [List.length_append] at h1
  have h2 : 1 ≤ rel.length := by
    cases rel with
    | nil => exact absurd rfl hrelne
    | cons a t => simp
  omega

theorem additivePass_keeps_root (S R : Path) :
    ∀ l : List Path, (∀ rel ∈ l, rel ≠ []) → ∀ st : FS, ∀ n : Node,
      st.find R = some n → (additivePass S R st l).1.find R = some n := by
  intro l
  induction l with
  | nil =>
    intro _ st n h
    exact h
  | cons rel rest ih =>
    intro hne st n h
    have hstep := sync_item_keeps_root st S R rel (hne rel (List.mem_cons_self rel rest)) h
    exact ih (fun r hr => hne r (List.mem_cons_of_mem rel hr)) (sync_item st S R rel).1 n hstep

theorem subtractivePass_keeps_root (R : Path) (srcW : List Path) :
    ∀ l : List Path, (∀ rel ∈ l, rel ≠ []) → ∀ st : FS, ∀ n : Node,
      st.find R = some n → (subtractivePass R srcW st l).1.find R = some n := by
  intro l
  induction l with
  | nil =>
    intro _ st n h
    exact h
  | cons rel rest ih =>
    intro hne st n h
    have hrelne := hne rel (List.mem_cons_self rel rest)
    have hrest := fun r hr => hne r (List.mem_cons_of_mem rel hr)
    by_cases hc : srcW.contains rel = true
    · have hstep : subtractivePass R srcW st (rel :: rest) = subtractivePass R srcW st rest := by
        simp only [subtractivePass]
        rw [if_pos hc]
      rw [hstep]
      exact ih hrest st n h
    · have hstep : (subtractivePass R srcW st (rel :: rest)).1 =
          (subtractivePass R srcW (remove_path st (R ++ rel)).1 rest).1 := by
        simp only [subtractivePass]
        rw [if_neg hc]
      rw [hstep]
      apply ih hrest
      rw [remove_path_keeps_root st R rel hrelne]
      exact h

theorem synchronize_root_dir {fs : FS} {S R : Path} (hRne : R ≠ [])
    {fs' : FS} {lg : List LogEntry}
    (h : synchronize fs S R = .ok (fs', lg)) (hsrc : (fs.find S).isNone = false) :
    ∃ b, fs'.find R = some (Node.dir b) := by
  unfold synchronize at h
  rw [if_neg (by simp [hsrc])] at h
  cases hmk : mkdirP fs R with
  | none =>
    rw [hmk] at h
    cases h
  | some fs1 =>
    rw [hmk] at h
    obtain ⟨b, hb⟩ := mkdirP_prefix_dir hmk R (mem_prefixesOf.mpr ⟨hRne, List.prefix_rfl⟩)
    have hadd := additivePass_keeps_root S R (walkPaths fs1 S) walk_ne_nil fs1 (Node.dir b) hb
    have hsub := subtractivePass_keeps_root R (walkPaths fs1 S) (walkPaths fs1 R) walk_ne_nil
      (additivePass S R fs1 (walkPaths fs1 S)).1 (Node.dir b) hadd
    have hfs' : fs' = (subtractivePass R (walkPaths fs1 S)
        (additivePass S R fs1 (walkPaths fs1 S)).1 (walkPaths fs1 R)).1 := by
      have h2 := h
      dsimp only at h2
      injection h2 with h3
      have h4 := congrArg Prod.fst h3
      exact h4.symm
    rw [hfs']
    exact ⟨b, hsub⟩

end FileSync

namespace FileSync

theorem runPasses_frame (S R : Path) (hd1 : ¬ S <+: R) (hd2 : ¬ R <+: S) :
    ∀ n : Nat, ∀ fs : FS, ∀ p : Path, S <+: p →
      (runPasses S R n fs).find p = fs.find p := by
  intro n
  induction n with
  | zero =>
    intro fs p _
    rfl
  | succ k ih =>
    intro fs p hp
    have hone : (syncFS fs S R).find p = fs.find p := by
      apply synchronize_frame
      · intro hpre
        exact hd1 (hp.trans hpre)
      · intro hpre
        rcases List.prefix_or_prefix_of_prefix hpre hp with h | h
        · exact hd2 h
        · exact hd1 h
    cases hs : synchronize fs S R with
    | ok res =>
      obtain ⟨f, l⟩ := res
      have h1 : runPasses S R (k + 1) fs = runPasses S R k f := by
        simp only [runPasses]
        rw [hs]
      have h2 : syncFS fs S R = f := by
        unfold syncFS
        rw [hs]
      rw [h1, ih f p hp, ← h2, hone]
    | error res =>
      obtain ⟨f, l⟩ := res
      have h1 : runPasses S R (k + 1) fs = f := by
        simp only [runPasses]
        rw [hs]
      have h2 : syncFS fs S R = f := by
        unfold syncFS
        rw [hs]
      rw [h1, ← h2, hone]

/-! ### Claim theorems -/

/-- C1: if the source root does not exist when `synchronize()` is called, the
pass logs the start marker and an error record and returns with the filesystem
completely unchanged — in particular nothing under the replica root is
created, overwritten, or removed by that pass. -/
theorem c1_missing_source_no_mutation (fs : FS) (S R : Path)
    (h : fs.find S = none) :
    synchronize fs S R = .ok (fs, [LogEntry.started S R, LogEntry.errorLog S]) := by
  unfold synchronize
  rw [if_pos (by simp [h])]

/-- Witness for C1 at a concrete filesystem with a missing source root. -/
theorem c1_missing_source_no_mutation_witness :
    (FS.mk [(["r"], Node.dir true)]).find ["s"] = none ∧
    synchronize (FS.mk [(["r"], Node.dir true)]) ["s"] ["r"] =
      .ok (FS.mk [(["r"], Node.dir true)],
        [LogEntry.started ["s"] ["r"], LogEntry.errorLog ["s"]]) :=
  ⟨by decide, c1_missing_source_no_mutation (FS.mk [(["r"], Node.dir true)]) ["s"] ["r"]
    (by decide)⟩

/-- Concrete state for the C2 counterexample: the relative path `a` is a
directory in the source tree but a regular file in the replica tree. -/
def fsC2cex : FS :=
  ⟨[(["s"], Node.dir true), (["s", "a"], Node.dir true),
    (["r"], Node.dir true), (["r", "a"], Node.file [0] true)]⟩

/-- C2 counterexample: on a source/replica pair whose only divergence is a
dir-vs-file kind mismatch at relative path `a`, the pass completes without a
single failure (its log is just the start/completed markers, and no error,
copy, create or remove record is emitted), yet the replica still differs from
the source: `a` remains a file in the replica while it is a directory in the
source, so the claimed convergence of paths-with-kinds is false. -/
theorem c2_counterexample :
    syncFS fsC2cex ["s"] ["r"] = fsC2cex ∧
    syncLog fsC2cex ["s"] ["r"] =
      [LogEntry.started ["s"] ["r"], LogEntry.completed] ∧
    fsC2cex.find ["s", "a"] = some (Node.dir true) ∧
    fsC2cex.find ["r", "a"] = some (Node.file [0] true) := by
  decide

/-- C2 as amended: convergence holds provided additionally that the two roots
do not overlap, the replica root is absent or a directory (with no regular
file blocking its ancestor chain), and no relative path has mismatched kinds
between the two trees; the "no per-item operation fails" premise of the claim
is rendered as full readability of both trees.  Then the pass completes and
every replica slot equals the corresponding source node (paths, kinds and
byte contents), with the source side untouched. -/
theorem c2_amended_convergence {fs : FS} {S R : Path}
    (hWF : fs.WF) (hd1 : ¬ S <+: R) (hd2 : ¬ R <+: S) (hRne : R ≠ [])
    (hsroot : fs.find S = some (Node.dir true))
    (hsread : allReadableUnder fs S = true)
    (hrread : allReadableUnder fs R = true)
    (hrroot : fs.find R = none ∨ fs.find R = some (Node.dir true))
    (hrparents : ∀ q ∈ prefixesOf R, isFileAt fs q = false)
    (hmis : noMismatch fs S R = true) :
    syncCompleted fs S R = true ∧
    (∀ rel : Path, rel ≠ [] →
      (syncFS fs S R).find (R ++ rel) = fs.find (S ++ rel) ∧
      (syncFS fs S R).find (S ++ rel) = fs.find (S ++ rel)) := by
  obtain ⟨h1, h2, _⟩ :=
    synchronize_converges hWF hd1 hd2 hsroot hsread hrread hrroot hrparents hmis hRne
  refine ⟨h1, fun rel hrel => ⟨h2 rel hrel, ?_⟩⟩
  apply synchronize_frame
  · intro hp
    exact hd1 ((List.prefix_append S rel).trans hp)
  · intro hp
    rcases List.prefix_or_prefix_of_prefix hp (List.prefix_append S rel) with h | h
    · exact hd2 h
    · exact hd1 h

/-- Concrete state for the C2 witness: nested source tree, replica holding
stale content, a same-path file with different bytes, and replica-only junk. -/
def fsC2w : FS :=
  ⟨[(["s"], Node.dir true), (["s", "d"], Node.dir true),
    (["s", "d", "f"], Node.file [1, 2] true), (["s", "g"], Node.file [5] true),
    (["r"], Node.dir true), (["r", "junk"], Node.file [9] true),
    (["r", "g"], Node.file [6] true), (["r", "old"], Node.dir true),
    (["r", "old", "z"], Node.file [3] true)]⟩

/-- Witness for the amended C2 at a concrete dirty replica. -/
theorem c2_amended_convergence_witness :
    syncCompleted fsC2w ["s"] ["r"] = true ∧
    (syncFS fsC2w ["s"] ["r"]).find (["r"] ++ ["g"]) = fsC2w.find (["s"] ++ ["g"]) :=
  have h := @c2_amended_convergence fsC2w ["s"] ["r"] (by decide) (by decide) (by decide)
    (by decide) (by decide) (by decide) (by decide) (by decide) (by decide) (by decide)
  ⟨h.1, (h.2 ["g"] (by decide)).1⟩

/-- Concrete state for the C3 counterexample: two equal-size files, both
unreadable, so both digest computations fail. -/
def fsC3cex : FS :=
  ⟨[(["a"], Node.file [1] false), (["b"], Node.file [2] false)]⟩

/-- C3 counterexample: both files exist with equal sizes and the digest
computation of each fails (models the `""` sentinel of `calculate_file_hash`
after `IOError`), yet `files_are_identical` returns true, because the two
empty sentinels compare equal — so the claim "digest failure of either file
propagates as identical == false" is false when both digests fail. -/
theorem c3_counterexample :
    fsC3cex.find ["a"] = some (Node.file [1] false) ∧
    fsC3cex.find ["b"] = some (Node.file [2] false) ∧
    calculate_file_hash fsC3cex ["a"] = none ∧
    calculate_file_hash fsC3cex ["b"] = none ∧
    files_are_identical fsC3cex ["a"] ["b"] = true := by
  decide

/-- C3 as amended: when exactly one of the two digest computations fails,
`files_are_identical` does return false (so the reconciler recopies); the
claim fails only in the both-digests-fail case, where the two `""` sentinels
compare equal. -/
theorem c3_amended_one_digest_failure (fs : FS) (a b : Path)
    (h : (calculate_file_hash fs a = none ∧ calculate_file_hash fs b ≠ none) ∨
      (calculate_file_hash fs a ≠ none ∧ calculate_file_hash fs b = none)) :
    files_are_identical fs a b = false := by
  unfold files_are_identical
  cases hfa : fs.find a with
  | none => rfl
  | some na =>
    cases hfb : fs.find b with
    | none => rfl
    | some nb =>
      show (if (na.st_size != nb.st_size) = true then false
        else calculate_file_hash fs a == calculate_file_hash fs b) = false
      by_cases hsz : (na.st_size != nb.st_size) = true
      · rw [if_pos hsz]
      · rw [if_neg hsz]
        rcases h with ⟨ha, hb⟩ | ⟨ha, hb⟩
        · rw [ha]
          cases hcb : calculate_file_hash fs b with
          | none => exact absurd hcb hb
          | some d => rfl
        · rw [hb]
          cases hca : calculate_file_hash fs a with
          | none => exact absurd hca ha
          | some d => rfl

/-- Concrete state for the C3 witness: file `a` unreadable, file `b`
readable, equal sizes. -/
def fsC3w : FS :=
  ⟨[(["a"], Node.file [1] false), (["b"], Node.file [2] true)]⟩

/-- Witness for the amended C3. -/
theorem c3_amended_one_digest_failure_witness :
    calculate_file_hash fsC3w ["a"] = none ∧
    calculate_file_hash fsC3w ["b"] ≠ none ∧
    files_are_identical fsC3w ["a"] ["b"] = false :=
  ⟨by decide, by decide,
    c3_amended_one_digest_failure fsC3w ["a"] ["b"] (Or.inl ⟨by decide, by decide⟩)⟩

end FileSync

namespace FileSync

/-- C4: idempotence.  On a state in which the replica already mirrors the
source node-for-node (the state left behind by a converged first call, with
the source unchanged) and both trees are fully readable (the claim's ambient
"converged first call" scenario), a second `synchronize()` performs no
mutation at all — the filesystem is returned unchanged — and emits only the
start/completed info markers: no copy, create-directory, or remove record. -/
theorem c4_second_pass_noop {fs : FS} {S R : Path}
    (hWF : fs.WF) (hd1 : ¬ S <+: R) (hd2 : ¬ R <+: S)
    (hsroot : fs.find S = some (Node.dir true))
    (hrroot : fs.find R = some (Node.dir true))
    (hsread : allReadableUnder fs S = true)
    (hrread : allReadableUnder fs R = true)
    (hsync : syncedB fs S R = true) :
    synchronize fs S R = .ok (fs, [LogEntry.started S R, LogEntry.completed]) :=
  synchronize_noop hWF hd1 hd2 hsroot hrroot hsread hrread hsync

/-- Concrete converged state for the C4 witness. -/
def fsC4w : FS :=
  ⟨[(["s"], Node.dir true), (["s", "d"], Node.dir true),
    (["s", "d", "f"], Node.file [1, 2] true), (["s", "g"], Node.file [5] true),
    (["r"], Node.dir true), (["r", "d"], Node.dir true),
    (["r", "d", "f"], Node.file [1, 2] true), (["r", "g"], Node.file [5] true)]⟩

/-- Witness for C4 on a concrete converged state. -/
theorem c4_second_pass_noop_witness :
    synchronize fsC4w ["s"] ["r"] =
      .ok (fsC4w, [LogEntry.started ["s"] ["r"], LogEntry.completed]) :=
  @c4_second_pass_noop fsC4w ["s"] ["r"] (by decide) (by decide) (by decide)
    (by decide) (by decide) (by decide) (by decide) (by decide)

/-- Concrete state for the C5 counterexample: the replica root lies inside
the source tree. -/
def fsC5cex : FS := ⟨[(["s"], Node.dir true)]⟩

/-- C5 counterexample: when the replica root is nested inside the source
tree (nothing in the code forbids this), a single completed pass creates a
new directory under the source root — the source tree is NOT left bit-for-bit
unchanged, refuting the claim as universally stated.  Here the pass creates
the directory `s/sub` (and, because the snapshots are taken after that
creation, even `s/sub/sub`). -/
theorem c5_counterexample :
    fsC5cex.find ["s", "sub"] = none ∧
    syncCompleted fsC5cex ["s"] ["s", "sub"] = true ∧
    (syncFS fsC5cex ["s"] ["s", "sub"]).find ["s", "sub"] = some (Node.dir true) := by
  decide

/-- C5 as amended: provided the two roots do not overlap (neither is a
prefix of the other), no entry at or below the source root is created,
modified, or deleted by any number of `synchronize()` calls of the driver
loop. -/
theorem c5_amended_source_frame (fs : FS) (S R : Path)
    (hd1 : ¬ S <+: R) (hd2 : ¬ R <+: S) (n : Nat) :
    ∀ p : Path, S <+: p → (runPasses S R n fs).find p = fs.find p :=
  fun p hp => runPasses_frame S R hd1 hd2 n fs p hp

/-- Concrete state for the C5 witness. -/
def fsC5w : FS :=
  ⟨[(["s"], Node.dir true), (["s", "f"], Node.file [7] true),
    (["r"], Node.dir true), (["r", "junk"], Node.file [1] true)]⟩

/-- Witness for the amended C5: two passes leave the source file and the
source root untouched. -/
theorem c5_amended_source_frame_witness :
    (runPasses ["s"] ["r"] 2 fsC5w).find ["s", "f"] = fsC5w.find ["s", "f"] ∧
    (runPasses ["s"] ["r"] 2 fsC5w).find ["s"] = fsC5w.find ["s"] :=
  ⟨c5_amended_source_frame fsC5w ["s"] ["r"] (by decide) (by decide) 2
      ["s", "f"] (by decide),
    c5_amended_source_frame fsC5w ["s"] ["r"] (by decide) (by decide) 2
      ["s"] (by decide)⟩

/-- Concrete state for the C6 counterexample: relative path `f` is a file in
the source and a directory in the replica. -/
def fsC6cex : FS :=
  ⟨[(["s"], Node.dir true), (["s", "f"], Node.file [1, 2, 3] true),
    (["r"], Node.dir true), (["r", "f"], Node.dir true)]⟩

/-- C6 counterexample: with a file in the source and a directory in the
replica at the same relative path, the additive pass does NOT leave the
replica entry untouched: `files_are_identical` returns false (a directory
cannot be size/digest-matched against a file), `copy_file` is invoked, a
COPIED record is emitted, and `shutil.copy2` with a directory destination
drops the source file INSIDE the replica directory (`r/f/f` appears). -/
theorem c6_counterexample :
    fsC6cex.find ["s", "f"] = some (Node.file [1, 2, 3] true) ∧
    fsC6cex.find ["r", "f"] = some (Node.dir true) ∧
    fsC6cex.find ["r", "f", "f"] = none ∧
    (syncFS fsC6cex ["s"] ["r"]).find ["r", "f", "f"]
      = some (Node.file [1, 2, 3] true) ∧
    LogEntry.copied ["s", "f"] ["r", "f"] ∈ syncLog fsC6cex ["s"] ["r"] := by
  decide

theorem identical_file_dir {st : FS} {a b : Path} {c : List Nat} {bb : Bool}
    (ha : st.find a = some (Node.file c true)) (hb : st.find b = some (Node.dir bb)) :
    files_are_identical st a b = false := by
  unfold files_are_identical
  rw [ha, hb]
  show (if ((Node.file c true).st_size != (Node.dir bb).st_size) = true then false
    else calculate_file_hash st a == calculate_file_hash st b) = false
  by_cases hsz : (((Node.file c true).st_size != (Node.dir bb).st_size)) = true
  · rw [if_pos hsz]
  · rw [if_neg hsz]
    have hcb : calculate_file_hash st b = none := by
      unfold calculate_file_hash
      rw [hb]
    have hca : calculate_file_hash st a = some c := by
      unfold calculate_file_hash
      rw [ha]
    rw [hca, hcb]
    rfl

/-- C6 as amended: for a relative path that is a directory in the source and
an existing entry (of any kind, in particular a file) in the replica, the
additive step really is a silent no-op; but in the opposite mismatch — file
in the source, directory in the replica — the step is NOT a no-op: the
identity check fails and `copy_file` is invoked on the directory path (which,
per `shutil.copy2`, copies the source file into that directory). -/
theorem c6_amended_mismatch_behavior :
    (∀ (st : FS) (S R rel : Path) (b : Bool),
      st.find (S ++ rel) = some (Node.dir b) → (st.find (R ++ rel)).isSome = true →
      sync_item st S R rel = (st, [])) ∧
    (∀ (st : FS) (S R rel : Path) (c : List Nat) (b : Bool),
      st.find (S ++ rel) = some (Node.file c true) →
      st.find (R ++ rel) = some (Node.dir b) →
      files_are_identical st (S ++ rel) (R ++ rel) = false ∧
      sync_item st S R rel = copy_file st (S ++ rel) (R ++ rel)) := by
  constructor
  · intro st S R rel b hs hr
    rw [sync_item_dir_eq hs, if_pos hr]
  · intro st S R rel c b hs hr
    have hid := identical_file_dir hs hr
    refine ⟨hid, ?_⟩
    rw [sync_item_file_eq hs, if_neg (by simp [hr]), if_neg (by simp [hid])]

/-- Witness for the amended C6, instantiating both mismatch directions on
concrete states. -/
theorem c6_amended_mismatch_behavior_witness :
    sync_item (FS.mk [(["s"], Node.dir true), (["s", "d"], Node.dir true),
        (["r"], Node.dir true), (["r", "d"], Node.file [4] true)]) ["s"] ["r"] ["d"]
      = (FS.mk [(["s"], Node.dir true), (["s", "d"], Node.dir true),
        (["r"], Node.dir true), (["r", "d"], Node.file [4] true)], []) ∧
    (files_are_identical fsC6cex ["s", "f"] ["r", "f"] = false ∧
      sync_item fsC6cex ["s"] ["r"] ["f"]
        = copy_file fsC6cex ["s", "f"] ["r", "f"]) :=
  ⟨c6_amended_mismatch_behavior.1 (FS.mk [(["s"], Node.dir true),
      (["s", "d"], Node.dir true), (["r"], Node.dir true),
      (["r", "d"], Node.file [4] true)]) ["s"] ["r"] ["d"] true (by decide) (by decide),
    c6_amended_mismatch_behavior.2 fsC6cex ["s"] ["r"] ["f"] [1, 2, 3] true
      (by decide) (by decide)⟩

end FileSync

namespace FileSync

theorem walkPaths_nil_of_missing {fs : FS} {root : Path} (h : fs.find root = none) :
    walkPaths fs root = [] := by
  unfold walkPaths
  apply List.filterMap_eq_nil_iff.mpr
  intro p _
  by_cases hpre : root.isPrefixOf p = true
  · rw [if_pos hpre]
    have hr : isReadableDir fs root = false := by
      unfold isReadableDir
      rw [h]
    have hfalse : reachable fs root (p.drop root.length) = false := by
      cases hd : p.drop root.length with
      | nil => rfl
      | cons c rest =>
        cases rest with
        | nil =>
          unfold reachable
          rw [hr]
          rfl
        | cons d r2 =>
          unfold reachable
          rw [hr]
          rfl
    rw [if_neg (by simp [hfalse])]
  · rw [if_neg hpre]

/-- Concrete state for the C7 counterexample: under root `r`, subdirectory
`bad` is unreadable (scandir on it fails) and holds file `x`; subdirectory
`good` is readable and holds file `y`. -/
def fsC7cex : FS :=
  ⟨[(["r"], Node.dir true), (["r", "bad"], Node.dir false),
    (["r", "bad", "x"], Node.file [7] true), (["r", "good"], Node.dir true),
    (["r", "good", "y"], Node.file [9] true)]⟩

/-- C7 counterexample: the tree contains an unreadable subdirectory, so an
OS error is encountered while scanning that subtree (its file `x` is indeed
skipped — the rest of the tree, including `good/y`, is still enumerated),
but the enumeration emits NO log record whatsoever: `os.walk` with the
default `onerror=None` swallows the `scandir` error, so the claim's "logs
the error" is false. -/
theorem c7_counterexample :
    fsC7cex.find ["r", "bad"] = some (Node.dir false) ∧
    fsC7cex.find ["r", "bad", "x"] = some (Node.file [7] true) ∧
    ["bad", "x"] ∉ (get_directory_structure fsC7cex ["r"]).1 ∧
    ["bad"] ∈ (get_directory_structure fsC7cex ["r"]).1 ∧
    ["good", "y"] ∈ (get_directory_structure fsC7cex ["r"]).1 ∧
    (get_directory_structure fsC7cex ["r"]).2 = [] := by
  decide

/-- C7 as amended: enumeration never emits a log record (scandir errors are
silently swallowed by `os.walk`; the `except` clause in the source is
unreachable); a missing root yields the empty snapshot; and the enumerated
relative paths are exactly those reachable through a chain of readable
directories — so an unreadable subdirectory only loses its own subtree and
every other subtree is still fully enumerated. -/
theorem c7_amended_enumeration :
    (∀ (fs : FS) (root : Path), (get_directory_structure fs root).2 = []) ∧
    (∀ (fs : FS) (root : Path), fs.find root = none →
      (get_directory_structure fs root).1 = []) ∧
    (∀ (fs : FS) (root rel : Path),
      rel ∈ (get_directory_structure fs root).1 ↔ reachable fs root rel = true) := by
  refine ⟨fun _ _ => rfl, ?_, fun fs root rel => mem_walkPaths⟩
  intro fs root hroot
  exact walkPaths_nil_of_missing hroot

/-- Witness for the amended C7. -/
theorem c7_amended_enumeration_witness :
    (get_directory_structure fsC7cex ["r"]).2 = [] ∧
    (get_directory_structure (FS.mk []) ["r"]).1 = [] ∧
    (["good"] ∈ (get_directory_structure fsC7cex ["r"]).1 ↔
      reachable fsC7cex ["r"] ["good"] = true) :=
  ⟨c7_amended_enumeration.1 fsC7cex ["r"],
    c7_amended_enumeration.2.1 (FS.mk []) ["r"] (by decide),
    c7_amended_enumeration.2.2 fsC7cex ["r"] ["good"]⟩

/-- C8: `files_are_identical` returns false when either path has no entry;
false when both entries exist but their sizes differ (no digest is consulted
in either short-circuit — they are the first two exits of the function); and
on two readable files it returns true exactly when the two SHA-256 digests
(idealized as the byte streams themselves) are equal. -/
theorem c8_files_are_identical_spec :
    (∀ (fs : FS) (a b : Path), (fs.find a = none ∨ fs.find b = none) →
      files_are_identical fs a b = false) ∧
    (∀ (fs : FS) (a b : Path) (na nb : Node),
      fs.find a = some na → fs.find b = some nb → na.st_size ≠ nb.st_size →
      files_are_identical fs a b = false) ∧
    (∀ (fs : FS) (a b : Path) (ca cb : List Nat),
      fs.find a = some (Node.file ca true) → fs.find b = some (Node.file cb true) →
      (files_are_identical fs a b = true ↔
        calculate_file_hash fs a = calculate_file_hash fs b)) := by
  refine ⟨?_, ?_, ?_⟩
  · intro fs a b h
    cases hfa : fs.find a with
    | none =>
      unfold files_are_identical
      rw [hfa]
    | some na =>
      cases hfb : fs.find b with
      | none =>
        unfold files_are_identical
        rw [hfa, hfb]
      | some nb =>
        exfalso
        rcases h with ha | hb
        · rw [hfa] at ha
          cases ha
        · rw [hfb] at hb
          cases hb
  · intro fs a b na nb ha hb hne
    unfold files_are_identical
    rw [ha, hb]
    show (if (na.st_size != nb.st_size) = true then false
      else calculate_file_hash fs a == calculate_file_hash fs b) = false
    rw [if_pos (by simpa [bne_iff_ne] using hne)]
  · intro fs a b ca cb ha hb
    have hca : calculate_file_hash fs a = some ca := by
      unfold calculate_file_hash
      rw [ha]
    have hcb : calculate_file_hash fs b = some cb := by
      unfold calculate_file_hash
      rw [hb]
    unfold files_are_identical
    rw [ha, hb]
    show ((if ((Node.file ca true).st_size != (Node.file cb true).st_size) = true then false
      else calculate_file_hash fs a == calculate_file_hash fs b) = true) ↔
      calculate_file_hash fs a = calculate_file_hash fs b
    rw [hca, hcb]
    by_cases hsz : (((Node.file ca true).st_size != (Node.file cb true).st_size)) = true
    · rw [if_pos hsz]
      constructor
      · intro hff
        cases hff
      · intro heq
        exfalso
        have hcc : ca = cb := Option.some.inj heq
        subst hcc
        simp [Node.st_size] at hsz
    · rw [if_neg hsz]
      constructor
      · intro hbeq
        have hcc : ca = cb := by simpa using hbeq
        rw [hcc]
      · intro heq
        have hcc : ca = cb := Option.some.inj heq
        subst hcc
        simp
  
/-- Concrete state for the C8 witness. -/
def fsC8w : FS :=
  ⟨[(["a"], Node.file [1, 2] true), (["b"], Node.file [1, 2] true),
    (["c"], Node.file [9] true)]⟩

/-- Witness for C8 at concrete files: a missing path, a size mismatch, and
an equal-digest pair. -/
theorem c8_files_are_identical_spec_witness :
    files_are_identical fsC8w ["a"] ["zz"] = false ∧
    files_are_identical fsC8w ["a"] ["c"] = false ∧
    (files_are_identical fsC8w ["a"] ["b"] = true ↔
      calculate_file_hash fsC8w ["a"] = calculate_file_hash fsC8w ["b"]) :=
  ⟨c8_files_are_identical_spec.1 fsC8w ["a"] ["zz"] (Or.inr (by decide)),
    c8_files_are_identical_spec.2.1 fsC8w ["a"] ["c"]
      (Node.file [1, 2] true) (Node.file [9] true) (by decide) (by decide) (by decide),
    c8_files_are_identical_spec.2.2 fsC8w ["a"] ["b"] [1, 2] [1, 2]
      (by decide) (by decide)⟩

/-- Concrete state for the C9 counterexample. -/
def fsC9cex : FS := ⟨[(["a"], Node.file [1] true)]⟩

/-- C9 counterexample: removing a path that no longer exists is indeed a
no-op that raises no error, but it emits NO log record at all (the code
falls through both the `is_file` and `is_dir` branches without logging),
refuting the claim's "emits a log record". -/
theorem c9_counterexample :
    fsC9cex.find ["zz"] = none ∧
    remove_path fsC9cex ["zz"] = (fsC9cex, []) := by
  decide

/-- C9 as amended: `remove_path` deletes a file (REMOVED FILE record, only
that entry disappears), deletes a directory with everything beneath it
(REMOVED DIRECTORY record), and on a missing path is a silent no-op — no
mutation, no error, and also no log record. -/
theorem c9_amended_remove_path_spec :
    (∀ (fs : FS) (p : Path) (c : List Nat) (r : Bool),
      fs.find p = some (Node.file c r) →
      (remove_path fs p).2 = [LogEntry.removedFile p] ∧
      (remove_path fs p).1.find p = none ∧
      (∀ q, q ≠ p → (remove_path fs p).1.find q = fs.find q)) ∧
    (∀ (fs : FS) (p : Path) (b : Bool),
      fs.find p = some (Node.dir b) →
      (remove_path fs p).2 = [LogEntry.removedDir p] ∧
      (∀ q, p <+: q → (remove_path fs p).1.find q = none) ∧
      (∀ q, ¬ p <+: q → (remove_path fs p).1.find q = fs.find q)) ∧
    (∀ (fs : FS) (p : Path), fs.find p = none → remove_path fs p = (fs, [])) := by
  refine ⟨?_, ?_, ?_⟩
  · intro fs p c r h
    unfold remove_path
    rw [h]
    refine ⟨rfl, ?_, ?_⟩
    · show (fs.removeKey p).find p = none
      rw [FS.find_removeKey, if_pos rfl]
    · intro q hq
      show (fs.removeKey p).find q = fs.find q
      rw [FS.find_removeKey, if_neg hq]
  · intro fs p b h
    unfold remove_path
    rw [h]
    refine ⟨rfl, ?_, ?_⟩
    · intro q hq
      show (fs.removeSubtree p).find q = none
      rw [FS.find_removeSubtree, if_pos hq]
    · intro q hq
      show (fs.removeSubtree p).find q = fs.find q
      rw [FS.find_removeSubtree, if_neg hq]
  · intro fs p h
    unfold remove_path
    rw [h]

/-- Concrete state for the C9 witness. -/
def fsC9w : FS :=
  ⟨[(["d"], Node.dir true), (["d", "x"], Node.file [2] true),
    (["keep"], Node.file [3] true)]⟩

/-- Witness for the amended C9: file removal, recursive directory removal,
and the silent missing-path no-op on concrete states. -/
theorem c9_amended_remove_path_spec_witness :
    (remove_path fsC9w ["keep"]).2 = [LogEntry.removedFile ["keep"]] ∧
    (remove_path fsC9w ["d"]).1.find ["d", "x"] = none ∧
    remove_path fsC9w ["zz"] = (fsC9w, []) :=
  ⟨(c9_amended_remove_path_spec.1 fsC9w ["keep"] [3] true (by decide)).1,
    (c9_amended_remove_path_spec.2.1 fsC9w ["d"] true (by decide)).2.1
      ["d", "x"] (by decide),
    c9_amended_remove_path_spec.2.2 fsC9w ["zz"] (by decide)⟩

/-- C10: every relative path produced by the enumerator is nonempty (the
root itself, the empty relative path, is never in a snapshot), and in every
pass that runs to completion with an existing source the replica root is
still a directory afterwards — the subtractive pass never removes it, even
when the source tree is empty. -/
theorem c10_replica_root_survives :
    (∀ (fs : FS) (root rel : Path),
      rel ∈ (get_directory_structure fs root).1 → rel ≠ []) ∧
    (∀ (fs : FS) (S R : Path) (fs2 : FS) (lg : List LogEntry), R ≠ [] →
      (fs.find S).isNone = false → synchronize fs S R = .ok (fs2, lg) →
      ∃ b, fs2.find R = some (Node.dir b)) := by
  constructor
  · intro fs root rel h
    exact walk_ne_nil rel h
  · intro fs S R fs2 lg hRne hsrc h
    exact synchronize_root_dir hRne h hsrc

/-- Concrete state for the C10 witness: an existing but empty source tree
and a replica holding one file, which the pass removes while the replica
root itself survives. -/
def fsC10w : FS :=
  ⟨[(["s"], Node.dir true), (["r"], Node.dir true),
    (["r", "junk"], Node.file [1] true)]⟩

/-- Witness for C10. -/
theorem c10_replica_root_survives_witness :
    (["junk"] : Path) ≠ [] ∧
    (∃ b, (syncFS fsC10w ["s"] ["r"]).find ["r"] = some (Node.dir b)) :=
  ⟨c10_replica_root_survives.1 fsC10w ["r"] ["junk"] (by decide),
    c10_replica_root_survives.2 fsC10w ["s"] ["r"] (syncFS fsC10w ["s"] ["r"])
      (syncLog fsC10w ["s"] ["r"]) (by decide) (by decide) (by rfl)⟩

end FileSync
